import Mathlib

/-!
# gomarkov: the n-gram Markov chain of `markov.go`

A shallow embedding of `markov.go` (package `markov`) and the properties of its
training (`Update`) and generation (`Respond`) algorithms.

Modelling conventions.

* A Go `map[K]V` is the list of its entries; a lookup returns the first entry with the
  key, an assignment replaces that entry in place or appends a new one.  The order of
  the list is not observable by the program: wherever the program ranges over a map,
  the iteration order is a separate argument.
* The `float32` occurrence counters hold natural numbers; a counter is modelled by the
  natural number it holds and `+= 1` by `float32Succ`, the rounded sum, which is the
  successor below `2^24` and leaves `2^24` unchanged.  The arithmetic of
  `weightedChoice` is exact arithmetic over `ℚ`.
* The pseudo-random source of `math/rand` is an argument: the result of `rand.Perm`,
  and a stream of raw draws for `rand.Intn` and `rand.Float32`.
* A run-time panic and a loop that is still running when the fuel is used up are
  outcomes of their own (`Outcome.panic`, `Outcome.timeout`).
* `int` is the 64-bit `int` of linux/amd64, modelled by `Int`; no computation of the
  program on an `int` leaves the 64-bit range.  `make` panics for a capacity that the
  run-time check of `makeslice` rejects (`makeCapLimit`); an allocation that passes
  this check succeeds, running out of memory is not modelled.
-/

namespace Markov

/-! ## Outcomes -/

/-- The result of running a piece of the program: it returned a value, it stopped with a
run-time panic, or it was still running when the fuel ran out. -/
inductive Outcome (α : Type) where
  | done (a : α)
  | panic
  | timeout
deriving DecidableEq, Repr

/-- Sequencing of outcomes. -/
def Outcome.bind {α β : Type} (x : Outcome α) (f : α → Outcome β) : Outcome β :=
  match x with
  | .done a => f a
  | .panic => .panic
  | .timeout => .timeout

/-! ## Data model -/

/-- `const NGrams = 2`. -/
def NGrams : Nat := 2

/-- `const NumSamples = 3`: the number of individual suffixes considered during
`getRandom`. -/
def NumSamples : Nat := 3

/-- `type Token struct { isStart bool; isEnd bool; value string }`. -/
structure Token where
  isStart : Bool
  isEnd : Bool
  value : String
deriving DecidableEq, Repr

/-- The zero value `Token{}`. -/
instance : Inhabited Token := ⟨⟨false, false, ""⟩⟩

/-- `NewToken(s)` is `&Token{value: s}`. -/
def NewToken (s : String) : Token := { isStart := false, isEnd := false, value := s }

/-- `Token{isStart: true}`. -/
def startToken : Token := { isStart := true, isEnd := false, value := "" }

/-- `Token{isEnd: true}`. -/
def endToken : Token := { isStart := false, isEnd := true, value := "" }

/-- The test `tok.isStart || tok.isEnd` of `respond` and `joinTokens`. -/
def Token.isSpecial (t : Token) : Bool := t.isStart || t.isEnd

/-- `[NGrams]Token`: an array of two tokens. -/
abbrev Context := Token × Token

/-- Map lookup `v, present := m[k]`. -/
def mapGet {κ ν : Type} [DecidableEq κ] : List (κ × ν) → κ → Option ν
  | [], _ => none
  | (k', v) :: rest, k => if k' = k then some v else mapGet rest k

/-- Map assignment `m[k] = v`. -/
def mapSet {κ ν : Type} [DecidableEq κ] : List (κ × ν) → κ → ν → List (κ × ν)
  | [], k, v => [(k, v)]
  | (k', v') :: rest, k, v =>
    if k' = k then (k, v) :: rest else (k', v') :: mapSet rest k v

/-- The keys of a map. -/
def mapKeys {κ ν : Type} (m : List (κ × ν)) : List κ := m.map Prod.fst

/-- `type Suffixes struct { occurrences map[Token]float32; suffixes []Token }`. -/
structure Suffixes where
  occurrences : List (Token × Nat)
  suffixes : List Token
deriving DecidableEq, Repr

/-- `NewSuffixes()`: an empty count map and a nil slice. -/
def NewSuffixes : Suffixes := { occurrences := [], suffixes := [] }

/-- The value of `s.occurrences[t]`: the zero value when `t` is not a key. -/
def Suffixes.count (s : Suffixes) (t : Token) : Nat := (mapGet s.occurrences t).getD 0

/-- The `float32` sum `x + 1` for a counter `x` that holds the natural number `n`, rounded
to the nearest `float32` with ties to even.  Below `2^24` the sum is exact.  From `2^24`
to `2^25` the `float32` numbers are the even ones, `n + 1` lies half way between `n` and
`n + 2`, and the one with the even significand `n / 2` or `n / 2 + 1` is taken; so
`2^24 + 1` is `2^24`.  From `2^25` on the nearest `float32` is `n` itself. -/
def float32Succ (n : Nat) : Nat :=
  if n < 16777216 then n + 1
  else if n < 33554432 then (if (n / 2) % 2 = 0 then n else n + 2)
  else n

/-- `Suffixes.Update`: increment the count for this suffix, `s.occurrences[suffix] += 1`
on a `float32`. -/
def Suffixes.Update (s : Suffixes) (suffix : Token) : Suffixes :=
  let present := (mapGet s.occurrences suffix).isSome
  let suffixes := if !present then s.suffixes ++ [suffix] else s.suffixes
  { occurrences := mapSet s.occurrences suffix (float32Succ (s.count suffix)),
    suffixes := suffixes }

/-- `type Chain struct`: the transition table and the two hooks.  A Go function value
may be `nil`, which is `none` here. -/
structure Chain where
  chains : List (Context × Suffixes)
  numBuffered : Int
  tokenize : Option (String → List Token)
  useNormalize : Bool
  normalize : Option (String → String)

/-! ## The default tokenizer -/

/-- `unicode.IsSpace`. -/
def isSpace (c : Char) : Bool :=
  let n := c.toNat
  n = 0x09 || n = 0x0A || n = 0x0B || n = 0x0C || n = 0x0D || n = 0x20 || n = 0x85 ||
  n = 0xA0 || n = 0x1680 || (0x2000 ≤ n && n ≤ 0x200A) || n = 0x2028 || n = 0x2029 ||
  n = 0x202F || n = 0x205F || n = 0x3000

/-- The scan of `strings.Fields`: `cur` is the field being read (empty when the scan is
between fields). -/
def fieldsAux : List Char → List Char → List (List Char)
  | [], cur => if cur = [] then [] else [cur]
  | ch :: rest, cur =>
    if isSpace ch then
      if cur = [] then fieldsAux rest [] else cur :: fieldsAux rest []
    else fieldsAux rest (cur ++ [ch])

/-- `strings.Fields`: split around each run of white space. -/
def Fields (s : String) : List String := (fieldsAux s.toList []).map String.mk

/-- `WhitespaceTokenize`: the start token, one token per field, the end token. -/
def WhitespaceTokenize (s : String) : List Token :=
  ([startToken] ++ (Fields s).map fun strTok => ({ isStart := false, isEnd := false, value := strTok } : Token))
    ++ [endToken]

/-- `NewChain()`. -/
def NewChain : Chain :=
  { chains := [], numBuffered := 0, tokenize := some WhitespaceTokenize,
    useNormalize := false, normalize := none }

/-- `NewCustomChain(tokenize, normalize)`. -/
def NewCustomChain (tokenize : Option (String → List Token))
    (normalize : Option (String → String)) : Chain :=
  { chains := [], numBuffered := 0, tokenize := tokenize,
    useNormalize := true, normalize := normalize }

/-! ## Training -/

/-- `shift(tokens, suffix)`: shift the sequence left by one. -/
def shift (tokens : Context) (suffix : Token) : Context := (tokens.2, suffix)

/-- `fillNGram(ngram, ar, from)`; Go panics when `from + 1` is out of range. -/
def fillNGram (ar : List Token) (frm : Nat) : Outcome Context :=
  match ar[frm]?, ar[frm + 1]? with
  | some a, some b => .done (a, b)
  | _, _ => .panic

/-- The normalize-then-tokenize prelude shared by `Update` and `Respond`:
`if c.useNormalize { line = c.normalize(line) }; tokens := c.tokenize(line)`.
Calling a nil function panics. -/
def Chain.tokens (c : Chain) (line : String) : Outcome (List Token) :=
  let normalized : Outcome String :=
    if c.useNormalize then
      match c.normalize with
      | none => .panic
      | some f => .done (f line)
    else .done line
  normalized.bind fun l =>
    match c.tokenize with
    | none => .panic
    | some tok => .done (tok l)

/-- The body of the loop of `Update` without the shift: look up or create the suffix
table of `ngram` and record `suffix` in it. -/
def observe (chains : List (Context × Suffixes)) (ngram : Context) (suffix : Token) :
    List (Context × Suffixes) :=
  match mapGet chains ngram with
  | none => mapSet chains ngram (NewSuffixes.Update suffix)
  | some suffixes => mapSet chains ngram (suffixes.Update suffix)

/-- One iteration of the loop of `Update`, at index `i`; the state is the table and the
current `ngram`.  Go panics when `i + NGrams` is out of range. -/
def updateStep (tokens : List Token)
    (st : Outcome (List (Context × Suffixes) × Context)) (i : Nat) :
    Outcome (List (Context × Suffixes) × Context) :=
  st.bind fun (chains, ngram) =>
    match tokens[i + NGrams]? with
    | none => .panic
    | some suffix => .done (observe chains ngram suffix, shift ngram suffix)

/-- `Chain.Update`. -/
def Chain.Update (c : Chain) (line : String) : Outcome Chain :=
  (c.tokens line).bind fun tokens =>
    if tokens.length ≤ NGrams then .done c
    else
      (fillNGram tokens 0).bind fun ngram =>
        ((List.range (tokens.length - NGrams)).foldl (updateStep tokens)
          (.done (c.chains, ngram))).bind fun st =>
            .done { c with chains := st.1 }

/-- The chain after `Update` has been called with each line in turn. -/
def trainAll (c : Chain) : List String → Outcome Chain
  | [] => .done c
  | l :: ls => (c.Update l).bind fun c1 => trainAll c1 ls

/-! ## Sampling -/

/-- The value of a `float32` quotient `x / y` in exact arithmetic, with the IEEE results
of a division by zero. -/
inductive Quotient32 where
  | num (q : ℚ)
  | posInf
  | negInf
  | nan
deriving DecidableEq

/-- The quotient `x / y`. -/
def fdiv (x y : ℚ) : Quotient32 :=
  if y ≠ 0 then .num (x / y)
  else if 0 < x then .posInf
  else if x < 0 then .negInf
  else .nan

/-- The comparison `b <= r` for a finite `r`; it is false when `b` is not a number. -/
def Quotient32.le (b : Quotient32) (r : ℚ) : Bool :=
  match b with
  | .num q => decide (q ≤ r)
  | .negInf => true
  | .posInf => false
  | .nan => false

/-- The second loop of `weightedChoice`: `boundaries[i] = runningTotal / sum` for
`i = 0 .. NumSamples - 1`; reading `occurrences[i]` out of range panics. -/
def boundariesStep (occurrences : List ℚ) (sum : ℚ)
    (st : Outcome (List Quotient32 × ℚ)) (i : Nat) : Outcome (List Quotient32 × ℚ) :=
  st.bind fun (boundaries, runningTotal) =>
    match occurrences[i]? with
    | none => .panic
    | some e => .done (boundaries.set i (fdiv (runningTotal + e) sum), runningTotal + e)

/-- The scan `for boundaries[choice] <= r && choice < NumSamples { choice += 1 }`.  The
index expression is evaluated first, so the scan panics when `choice` leaves the slice.
The scan runs at most `len(boundaries) + 1` times, which is the fuel. -/
def scan (boundaries : List Quotient32) (r : ℚ) : Nat → Nat → Outcome Nat
  | 0, _ => .timeout
  | fuel + 1, choice =>
    match boundaries[choice]? with
    | none => .panic
    | some b =>
      if b.le r && decide (choice < NumSamples) then scan boundaries r fuel (choice + 1)
      else .done choice

/-- `weightedChoice(suffixes, occurrences, r)`; the two arrays have `NumSamples`
elements. -/
def weightedChoice (suffixes : List Token) (occurrences : List ℚ) (r : ℚ) : Outcome Token :=
  let sum := occurrences.foldl (fun sum e => sum + e) 0
  ((List.range NumSamples).foldl (boundariesStep occurrences sum)
      (.done (List.replicate NumSamples (.num 0), 0))).bind fun st =>
    (scan st.1 r (st.1.length + 1) 0).bind fun choice =>
      match suffixes[choice]? with
      | none => .panic
      | some t => .done t

/-- One use of the random source by `getRandom`: the raw draw behind `rand.Intn` and the
result of `rand.Float32()`. -/
structure Draw where
  intn : Nat
  float32 : ℚ

/-- The random source: a stream of draws. -/
abbrev Rand := Nat → Draw

/-- The stream after its first draw has been used. -/
def Rand.next (rs : Rand) : Rand := fun n => rs (n + 1)

/-- One iteration of the loop of `getRandom`, at index `i`. -/
def getRandomStep (s : Suffixes) (startIndex : Nat)
    (st : Outcome (List Token × List ℚ)) (i : Nat) : Outcome (List Token × List ℚ) :=
  st.bind fun (suffixes, occurrences) =>
    let realIndex := (startIndex + i) % s.suffixes.length
    match s.suffixes[realIndex]? with
    | none => .panic
    | some choice => .done (suffixes.set i choice, occurrences.set i (s.count choice : ℚ))

/-- `Suffixes.getRandom`.  `rand.Intn(numSuf)` panics when `numSuf` is zero and returns a
number in `[0, numSuf)` otherwise: the raw draw reduced modulo `numSuf`. -/
def Suffixes.getRandom (s : Suffixes) (d : Draw) : Outcome Token :=
  let numSuf := s.suffixes.length
  if numSuf = 0 then .panic
  else
    let startIndex := d.intn % numSuf
    ((List.range NGrams).foldl (getRandomStep s startIndex)
        (.done (List.replicate NumSamples default, List.replicate NumSamples 0))).bind fun st =>
      weightedChoice st.1 st.2 d.float32

/-! ## Generation -/

/-- `joinTokens`. -/
def joinTokens (toks : List Token) : String :=
  " ".intercalate ((toks.filter fun tok => !(tok.isStart || tok.isEnd)).map Token.value)

/-- The loop of `respond`: `i` is the loop counter and `responseToks` the trace so far.
Every iteration uses one unit of fuel. -/
def respondLoop (chains : List (Context × Suffixes)) (maxLen : Int) :
    Nat → Context → Int → List Token → Rand → Outcome (List Token × Rand)
  | 0, _, i, responseToks, rs => if i < maxLen then .timeout else .done (responseToks, rs)
  | fuel + 1, ngram, i, responseToks, rs =>
    if i < maxLen then
      let responseToks := responseToks ++ [ngram.1]
      let i := if ngram.1.isStart || ngram.1.isEnd then i - 1 else i
      match mapGet chains ngram with
      | none => .done (responseToks, rs)
      | some suffixes =>
        (suffixes.getRandom (rs 0)).bind fun suffix =>
          respondLoop chains maxLen fuel (shift ngram suffix) (i + 1) responseToks rs.next
    else .done (responseToks, rs)

/-- The largest capacity that `make([]Token, 0, cap)` accepts: `makeslice` panics with
"cap out of range" when `cap` is negative or `cap * sizeof(Token)` exceeds `maxAlloc`,
which is `2^48` bytes on linux/amd64, where a `Token` (two `bool`s and a `string`) takes
24 bytes: `11728124029610 * 24 ≤ 2^48 < 11728124029611 * 24`. -/
def makeCapLimit : Nat := 11728124029610

/-- `Chain.respond`.  `make([]Token, 0, maxLen)` panics for a negative `maxLen` and for
a `maxLen` above `makeCapLimit`. -/
def Chain.respond (c : Chain) (seed : Context) (maxLen : Int) (rs : Rand) (fuel : Nat) :
    Outcome (List Token × Rand) :=
  if maxLen < 0 ∨ (makeCapLimit : Int) < maxLen then .panic
  else
    (respondLoop c.chains maxLen fuel seed 0 [] rs).bind fun st =>
      .done (st.1.filter fun tok => !(tok.isStart || tok.isEnd), st.2)

/-- The first seeding loop of `Respond`: the windows of the input, in the order
`indexOrder`. -/
def inputSeedLoop (c : Chain) (tokens : List Token) (minLen maxLen : Int) (fuel : Nat) :
    List Nat → Rand → Outcome (Option (List Token) × Rand)
  | [], rs => .done (none, rs)
  | i :: rest, rs =>
    (fillNGram tokens i).bind fun ngram =>
      match mapGet c.chains ngram with
      | none => inputSeedLoop c tokens minLen maxLen fuel rest rs
      | some _ =>
        (c.respond ngram maxLen rs fuel).bind fun st =>
          if (st.1.length : Int) > minLen then .done (some st.1, st.2)
          else inputSeedLoop c tokens minLen maxLen fuel rest st.2

/-- The second seeding loop of `Respond`: the contexts of the table, in the order in
which `range c.chains` yields them. -/
def tableSeedLoop (c : Chain) (minLen maxLen : Int) (fuel : Nat) :
    List Context → Rand → Outcome (Option (List Token) × Rand)
  | [], rs => .done (none, rs)
  | ngram :: rest, rs =>
    (c.respond ngram maxLen rs fuel).bind fun st =>
      if (st.1.length : Int) > minLen then .done (some st.1, st.2)
      else tableSeedLoop c minLen maxLen fuel rest st.2

/-- The part of `Respond` after the test for an empty table: the accepted token sequence
`responseToks`, or `none` for nil.  `indexOrder` is the result of `rand.Perm`,
`rangeOrder` the iteration order of the table, `fuel` bounds each walk. -/
def Chain.responseToks (c : Chain) (input : String) (minLen maxLen : Int)
    (indexOrder : List Nat) (rangeOrder : List Context) (rs : Rand) (fuel : Nat) :
    Outcome (Option (List Token)) :=
  (c.tokens input).bind fun tokens =>
    (if tokens.length > NGrams then
        inputSeedLoop c tokens minLen maxLen fuel indexOrder rs
      else .done (none, rs)).bind fun st =>
      match st.1 with
      | some toks => .done (some toks)
      | none =>
        (tableSeedLoop c minLen maxLen fuel rangeOrder st.2).bind fun st2 => .done st2.1

/-- The error of `Respond` on an empty table. -/
def errEmptyModel : String := "cannot Respond with no chains built"

/-- The error of `Respond` when no candidate is long enough. -/
def errConstraint : String := "could not generate response within constraints"

/-- `Chain.Respond`: the pair `(response, err)`, where `none` is the nil error. -/
def Chain.Respond (c : Chain) (input : String) (minLen maxLen : Int)
    (indexOrder : List Nat) (rangeOrder : List Context) (rs : Rand) (fuel : Nat) :
    Outcome (String × Option String) :=
  if c.chains.length = 0 then .done ("", some errEmptyModel)
  else
    (c.responseToks input minLen maxLen indexOrder rangeOrder rs fuel).bind fun r =>
      match r with
      | none => .done ("", some errConstraint)
      | some toks => .done (joinTokens toks, none)

/-! ## Specification-side definitions -/

/-- The words of the tokenizer contract, "one field per maximal run of non-whitespace
characters, in order": `MaximalRuns cs runs` holds when `cs` is white space, then the
first run, then a rest that is empty or starts with white space and splits into the
remaining runs.  A run is non-empty and free of white space. -/
inductive MaximalRuns : List Char → List (List Char) → Prop where
  | blank (sp : List Char) (hsp : ∀ c ∈ sp, isSpace c = true) : MaximalRuns sp []
  | run (sp f rest : List Char) (runs : List (List Char))
      (hsp : ∀ c ∈ sp, isSpace c = true)
      (hne : f ≠ [])
      (hf : ∀ c ∈ f, isSpace c = false)
      (hrest : ∀ c ∈ rest.head?, isSpace c = true)
      (h : MaximalRuns rest runs) : MaximalRuns (sp ++ f ++ rest) (f :: runs)

/-- The chain of the tests: `NewChain()` after `Update("a b c")`, `Update("b c d")`,
`Update("c d")` (see `trainAll_testChain`). -/
def testChain : Chain :=
  { NewChain with
    chains :=
      [((startToken, NewToken "a"),
          { occurrences := [(NewToken "b", 1)], suffixes := [NewToken "b"] }),
       ((NewToken "a", NewToken "b"),
          { occurrences := [(NewToken "c", 1)], suffixes := [NewToken "c"] }),
       ((NewToken "b", NewToken "c"),
          { occurrences := [(endToken, 1), (NewToken "d", 1)],
            suffixes := [endToken, NewToken "d"] }),
       ((startToken, NewToken "b"),
          { occurrences := [(NewToken "c", 1)], suffixes := [NewToken "c"] }),
       ((NewToken "c", NewToken "d"),
          { occurrences := [(endToken, 2)], suffixes := [endToken] }),
       ((startToken, NewToken "c"),
          { occurrences := [(NewToken "d", 1)], suffixes := [NewToken "d"] })] }

/-- The loop of `Update` as a recursion over the suffixes still to be read (the tokens
from index `i + NGrams` on); `Update_eq_updateLoop` relates it to the indexed loop. -/
def updateLoop (chains : List (Context × Suffixes)) (ngram : Context) :
    List Token → List (Context × Suffixes)
  | [] => chains
  | suffix :: rest => updateLoop (observe chains ngram suffix) (shift ngram suffix) rest

/-- The recorded occurrence count of `s` under `ctx`: `c.chains[ctx].occurrences[s]`, and
zero when `ctx` is not a key. -/
def tableCount (chains : List (Context × Suffixes)) (ctx : Context) (s : Token) : Nat :=
  match mapGet chains ctx with
  | none => 0
  | some t => t.count s

/-- The ordered successor sequence recorded under `ctx`: `c.chains[ctx].suffixes`, and
empty when `ctx` is not a key. -/
def tableSuffixes (chains : List (Context × Suffixes)) (ctx : Context) : List Token :=
  match mapGet chains ctx with
  | none => []
  | some t => t.suffixes

/-- The number of positions `i` with `tokens[i..i+NGrams) = ctx` and
`tokens[i+NGrams] = s`. -/
def transitionCount (tokens : List Token) (ctx : Context) (s : Token) : Nat :=
  (List.range (tokens.length - NGrams)).countP fun i =>
    decide (tokens[i]? = some ctx.1 ∧ tokens[i + 1]? = some ctx.2 ∧
      tokens[i + NGrams]? = some s)

/-- The context `ctx` is a contiguous window of `tokens` that is followed by a token. -/
def IsWindow (tokens : List Token) (ctx : Context) : Prop :=
  ∃ i, i + NGrams < tokens.length ∧ tokens[i]? = some ctx.1 ∧ tokens[i + 1]? = some ctx.2

/-- The table after `Update` has read the token sequence `tokens` (see `Update_eq`). -/
def updateTokens (chains : List (Context × Suffixes)) (tokens : List Token) :
    List (Context × Suffixes) :=
  match tokens with
  | t0 :: t1 :: rest => updateLoop chains (t0, t1) rest
  | _ => chains

/-- A suffix table is well formed: its ordered sequence is non-empty and has no
duplicates, the sequence and the count map have the same elements, and every recorded
count is at least 1. -/
def Suffixes.WellFormed (t : Suffixes) : Prop :=
  t.suffixes ≠ [] ∧ t.suffixes.Nodup ∧
    (∀ u ∈ t.suffixes, u ∈ mapKeys t.occurrences) ∧
    (∀ u ∈ mapKeys t.occurrences, u ∈ t.suffixes) ∧
    (∀ u ∈ t.suffixes, 1 ≤ t.count u)

instance (t : Suffixes) : Decidable t.WellFormed := by
  unfold Suffixes.WellFormed
  infer_instance

/-- Every suffix table of the transition table is well formed. -/
def TableWellFormed (chains : List (Context × Suffixes)) : Prop :=
  ∀ p ∈ chains, p.2.WellFormed

instance (chains : List (Context × Suffixes)) : Decidable (TableWellFormed chains) := by
  unfold TableWellFormed
  infer_instance

/-- The transitions that the loop of `Update` records, in order, when it starts with the
context `ngram` and reads the suffixes `rest`. -/
def transitions (ngram : Context) : List Token → List (Context × Token)
  | [] => []
  | suffix :: rest => (ngram, suffix) :: transitions (shift ngram suffix) rest

/-- The token `s` is a key of the count map recorded under `ctx`. -/
def Recorded (chains : List (Context × Suffixes)) (ctx : Context) (s : Token) : Prop :=
  ∃ t, mapGet chains ctx = some t ∧ s ∈ mapKeys t.occurrences

/-- The filter of `respond` and `joinTokens`: the tokens that are neither start nor
end. -/
def withoutSpecials (toks : List Token) : List Token :=
  toks.filter fun tok => !(tok.isStart || tok.isEnd)

/-- Every draw of `rand.Float32()` in the stream lies in `[0, 1)`. -/
def ValidDraws (rs : Rand) : Prop := ∀ n, 0 ≤ (rs n).float32 ∧ (rs n).float32 < 1

/-- The second token of every context of the table is a literal. -/
def KeysLiteral (chains : List (Context × Suffixes)) : Prop :=
  ∀ ctx ∈ mapKeys chains, ctx.2.isStart = false ∧ ctx.2.isEnd = false

/-- The first two loops of `weightedChoice`: the slice `boundaries`. -/
def boundaries (occurrences : List ℚ) : Outcome (List Quotient32) :=
  let sum := occurrences.foldl (fun sum e => sum + e) 0
  ((List.range NumSamples).foldl (boundariesStep occurrences sum)
      (.done (List.replicate NumSamples (.num 0), 0))).bind fun st => .done st.1

/-- The index `choice` with which the scan of `weightedChoice` ends. -/
def choiceIndex (occurrences : List ℚ) (r : ℚ) : Outcome Nat :=
  (boundaries occurrences).bind fun bs => scan bs r (bs.length + 1) 0

/-- The loop of `getRandom`: the arrays `suffixes` and `occurrences` that it passes to
`weightedChoice`. -/
def Suffixes.samples (s : Suffixes) (startIndex : Nat) : Outcome (List Token × List ℚ) :=
  (List.range NGrams).foldl (getRandomStep s startIndex)
    (.done (List.replicate NumSamples default, List.replicate NumSamples 0))

/-- The words "cumulative-sum/total-sum ratio after item `i`":
`(w0 + ... + wi) / (w0 + ... + wn)`. -/
def cumulativeRatio (weights : List ℚ) (i : Nat) : ℚ :=
  (weights.take (i + 1)).sum / weights.sum

/-- A suffix table with three distinct successors `a`, `b`, `c`, each recorded once. -/
def threeSuccessors : Suffixes :=
  { occurrences := [(NewToken "a", 1), (NewToken "b", 1), (NewToken "c", 1)],
    suffixes := [NewToken "a", NewToken "b", NewToken "c"] }

/-- A trace of the walk that starts at the context `ngram`: each token is the first token
of the current context, and the next context is the current one shifted by one of its
recorded successors. -/
def Path (chains : List (Context × Suffixes)) : Context → List Token → Prop
  | _, [] => True
  | ngram, [t] => t = ngram.1
  | ngram, t :: t2 :: rest =>
    t = ngram.1 ∧ ∃ u, u ∈ tableSuffixes chains ngram ∧ Path chains (shift ngram u) (t2 :: rest)

/-- The results of the tokenizer have no start or end token strictly between the first
and the last position. -/
def InteriorLiteral (tokenize : String → List Token) : Prop :=
  ∀ s i t, 0 < i → i + 1 < (tokenize s).length → (tokenize s)[i]? = some t →
    t.isStart = false ∧ t.isEnd = false

/-- A tokenizer that meets the contract "starts with Start, ends with End" and has start
tokens in the middle. -/
def loopTokenize : String → List Token :=
  fun _ => [startToken, startToken, startToken, endToken]

/-- The chain `NewCustomChain(loopTokenize, identity)` after `Update("x")`. -/
def loopChain : Chain :=
  { NewCustomChain (some loopTokenize) (some fun s => s) with
    chains :=
      [((startToken, startToken),
          { occurrences := [(startToken, 1), (endToken, 1)],
            suffixes := [startToken, endToken] })] }

/-! # Properties -/

/-! ## Maps -/

section MapLemmas
variable {κ ν : Type} [DecidableEq κ]

theorem mapGet_mapSet_self (m : List (κ × ν)) (k : κ) (v : ν) :
    mapGet (mapSet m k v) k = some v := by
  induction m with
  | nil => simp [mapSet, mapGet]
  | cons p rest ih =>
    obtain ⟨k', v'⟩ := p
    by_cases h : k' = k
    · simp [mapSet, mapGet, h]
    · simp [mapSet, mapGet, h, ih]

theorem mapGet_mapSet_ne (m : List (κ × ν)) {k k' : κ} (v : ν) (h : k ≠ k') :
    mapGet (mapSet m k v) k' = mapGet m k' := by
  induction m with
  | nil => simp [mapSet, mapGet, h]
  | cons p rest ih =>
    obtain ⟨k0, v0⟩ := p
    by_cases h0 : k0 = k
    · subst h0
      simp [mapSet, mapGet, h]
    · simp only [mapSet, h0, if_false, mapGet, ih]

theorem mapGet_isSome_iff (m : List (κ × ν)) (k : κ) :
    (mapGet m k).isSome = true ↔ k ∈ mapKeys m := by
  induction m with
  | nil => simp [mapGet, mapKeys]
  | cons p rest ih =>
    obtain ⟨k0, v0⟩ := p
    by_cases h0 : k0 = k
    · simp [mapGet, mapKeys, h0]
    · have h1 : ¬ k = k0 := fun e => h0 e.symm
      simp only [mapGet, h0, if_false, ih, mapKeys, List.map_cons, List.mem_cons, h1, false_or]

theorem mapGet_eq_none_iff (m : List (κ × ν)) (k : κ) :
    mapGet m k = none ↔ k ∉ mapKeys m := by
  rw [← mapGet_isSome_iff]
  cases mapGet m k <;> simp

theorem mem_mapKeys_mapSet (m : List (κ × ν)) (k k' : κ) (v : ν) :
    k' ∈ mapKeys (mapSet m k v) ↔ k' = k ∨ k' ∈ mapKeys m := by
  induction m with
  | nil => simp [mapSet, mapKeys]
  | cons p rest ih =>
    obtain ⟨k0, v0⟩ := p
    by_cases h0 : k0 = k
    · subst h0
      simp [mapSet, mapKeys]
    · simp only [mapKeys] at ih
      simp only [mapSet, h0, if_false, mapKeys, List.map_cons, List.mem_cons, ih]
      tauto

theorem mapSet_ne_nil (m : List (κ × ν)) (k : κ) (v : ν) : mapSet m k v ≠ [] := by
  cases m with
  | nil => simp [mapSet]
  | cons p rest =>
    obtain ⟨k0, v0⟩ := p
    by_cases h0 : k0 = k <;> simp [mapSet, h0]

end MapLemmas

/-! ## Suffix tables -/

theorem float32Succ_of_lt (n : Nat) (h : n < 16777216) : float32Succ n = n + 1 := by
  simp [float32Succ, h]

theorem le_float32Succ (n : Nat) : n ≤ float32Succ n := by
  unfold float32Succ
  split_ifs <;> omega

theorem one_le_float32Succ (n : Nat) : 1 ≤ float32Succ n := by
  unfold float32Succ
  split_ifs <;> omega

theorem float32Succ_saturated : float32Succ 16777216 = 16777216 := by decide

theorem iterate_float32Succ_zero (k : Nat) : float32Succ^[k] 0 = min k 16777216 := by
  induction k with
  | zero => rfl
  | succ k ih =>
    rw [Function.iterate_succ_apply', ih]
    by_cases hk : k < 16777216
    · rw [Nat.min_eq_left (by omega), float32Succ_of_lt k hk, Nat.min_eq_left (by omega)]
    · rw [Nat.min_eq_right (by omega), float32Succ_saturated, Nat.min_eq_right (by omega)]

theorem le_iterate_float32Succ (k c : Nat) : c ≤ float32Succ^[k] c := by
  induction k with
  | zero => exact le_refl c
  | succ k ih =>
    rw [Function.iterate_succ_apply']
    exact le_trans ih (le_float32Succ _)

theorem one_le_iterate_float32Succ (k c : Nat) (hk : 1 ≤ k) : 1 ≤ float32Succ^[k] c := by
  obtain ⟨j, rfl⟩ : ∃ j, k = j + 1 := ⟨k - 1, by omega⟩
  rw [Function.iterate_succ_apply']
  exact one_le_float32Succ _

theorem iterate_float32Succ_of_lt (k c : Nat) (h : float32Succ^[k] c < 16777216) :
    float32Succ^[k] c = c + k := by
  induction k with
  | zero => rfl
  | succ k ih =>
    rw [Function.iterate_succ_apply'] at h ⊢
    have h1 : float32Succ^[k] c < 16777216 := lt_of_le_of_lt (le_float32Succ _) h
    rw [ih h1, float32Succ_of_lt _ (by rw [← ih h1]; exact h1)]
    omega

theorem Suffixes.count_Update_self (s : Suffixes) (t : Token) :
    (s.Update t).count t = float32Succ (s.count t) := by
  simp [Suffixes.Update, Suffixes.count, mapGet_mapSet_self]

theorem Suffixes.count_Update_ne (s : Suffixes) {t u : Token} (h : t ≠ u) :
    (s.Update t).count u = s.count u := by
  simp [Suffixes.Update, Suffixes.count, mapGet_mapSet_ne _ _ h]

theorem Suffixes.count_Update (s : Suffixes) (t u : Token) :
    (s.Update t).count u = if t = u then float32Succ (s.count u) else s.count u := by
  by_cases h : t = u
  · subst h
    simp [Suffixes.count_Update_self]
  · simp [Suffixes.count_Update_ne s h, h]

theorem Suffixes.le_count_Update (s : Suffixes) (t u : Token) :
    s.count u ≤ (s.Update t).count u := by
  rw [Suffixes.count_Update]
  split_ifs
  · exact le_float32Succ _
  · exact le_refl _

theorem Suffixes.suffixes_Update_of_mem (s : Suffixes) (t : Token)
    (h : t ∈ mapKeys s.occurrences) : (s.Update t).suffixes = s.suffixes := by
  have := (mapGet_isSome_iff s.occurrences t).2 h
  simp [Suffixes.Update, this]

theorem Suffixes.suffixes_Update_of_not_mem (s : Suffixes) (t : Token)
    (h : t ∉ mapKeys s.occurrences) : (s.Update t).suffixes = s.suffixes ++ [t] := by
  have := (mapGet_eq_none_iff s.occurrences t).2 h
  simp [Suffixes.Update, this]

theorem Suffixes.mem_keys_Update (s : Suffixes) (t u : Token) :
    u ∈ mapKeys (s.Update t).occurrences ↔ u = t ∨ u ∈ mapKeys s.occurrences := by
  simp [Suffixes.Update, mem_mapKeys_mapSet]

theorem Suffixes.count_eq_zero_of_not_mem (s : Suffixes) (t : Token)
    (h : t ∉ mapKeys s.occurrences) : s.count t = 0 := by
  simp [Suffixes.count, (mapGet_eq_none_iff s.occurrences t).2 h]

/-- C7, as the code has it.  `Suffixes.Update(t)` on a table whose ordered sequence lists
exactly the keys of its count map: a token that was not recorded is appended once at the
end of the sequence and gets count 1; for a recorded token the sequence is unchanged and
the count becomes the `float32` sum `count + 1`, which is exactly `count + 1` as long as
the count is below `2^24 = 16777216` and is the count itself at `16777216`; the count of
every other token is unchanged. -/
theorem suffixes_update_spec (s : Suffixes) (t : Token)
    (h : ∀ u, u ∈ s.suffixes ↔ u ∈ mapKeys s.occurrences) :
    (t ∉ s.suffixes →
      (s.Update t).suffixes = s.suffixes ++ [t] ∧ (s.Update t).count t = 1) ∧
    (t ∈ s.suffixes →
      (s.Update t).suffixes = s.suffixes ∧
      (s.Update t).count t = float32Succ (s.count t) ∧
      (s.count t < 16777216 → (s.Update t).count t = s.count t + 1) ∧
      (s.count t = 16777216 → (s.Update t).count t = 16777216)) ∧
    (∀ u, u ≠ t → (s.Update t).count u = s.count u) := by
  refine ⟨fun hn => ?_, fun hm => ?_, fun u hu => ?_⟩
  · have hk : t ∉ mapKeys s.occurrences := fun hk => hn ((h t).2 hk)
    refine ⟨s.suffixes_Update_of_not_mem t hk, ?_⟩
    rw [s.count_Update_self, s.count_eq_zero_of_not_mem t hk]
    rfl
  · refine ⟨s.suffixes_Update_of_mem t ((h t).1 hm), s.count_Update_self t, ?_, ?_⟩
    · intro hlt
      rw [s.count_Update_self, float32Succ_of_lt _ hlt]
    · intro he
      rw [s.count_Update_self, he, float32Succ_saturated]
  · exact s.count_Update_ne (fun e => hu e.symm)

/-- C7 as amended, at the table of `TestSuffixUpdate`: after a first `Update(foo)` a
second one leaves the sequence `[foo]` and makes the count 2. -/
theorem suffixes_update_spec_witness :
    ((NewSuffixes.Update (NewToken "foo")).Update (NewToken "foo")).suffixes
        = [NewToken "foo"] ∧
      ((NewSuffixes.Update (NewToken "foo")).Update (NewToken "foo")).count (NewToken "foo")
        = 1 + 1 :=
  have h := (suffixes_update_spec (NewSuffixes.Update (NewToken "foo")) (NewToken "foo")
    (fun u => by
      simp [Suffixes.Update, NewSuffixes, mapSet, mapGet, mapKeys])).2.1 (by decide)
  ⟨h.1, h.2.2.1 (by decide)⟩

/-- C7 fails at the table with the one successor `foo` recorded `16777216 = 2^24` times:
`Update(foo)` leaves the count at `16777216`, because the `float32` sum `16777216 + 1`
rounds to `16777216`. -/
theorem suffixes_update_saturates :
    mapKeys [(NewToken "foo", 16777216)] = [NewToken "foo"] ∧
      Suffixes.count ⟨[(NewToken "foo", 16777216)], [NewToken "foo"]⟩ (NewToken "foo")
        = 16777216 ∧
      (Suffixes.Update ⟨[(NewToken "foo", 16777216)], [NewToken "foo"]⟩
        (NewToken "foo")).count (NewToken "foo") = 16777216 ∧
      (Suffixes.Update ⟨[(NewToken "foo", 16777216)], [NewToken "foo"]⟩
        (NewToken "foo")).count (NewToken "foo") ≠ 16777216 + 1 := by
  decide

/-! ## The default tokenizer -/

theorem MaximalRuns.cons_space {ch : Char} {cs : List Char} {runs : List (List Char)}
    (hch : isSpace ch = true) (h : MaximalRuns cs runs) : MaximalRuns (ch :: cs) runs := by
  cases h with
  | blank sp hsp =>
    refine MaximalRuns.blank _ ?_
    intro c hc
    rcases List.mem_cons.1 hc with rfl | hc
    · exact hch
    · exact hsp c hc
  | run sp f rest runs hsp hne hf hrest h =>
    have := MaximalRuns.run (ch :: sp) f rest runs (by
      intro c hc
      rcases List.mem_cons.1 hc with rfl | hc
      · exact hch
      · exact hsp c hc) hne hf hrest h
    simpa using this

theorem MaximalRuns.ne_nil {cs : List Char} {runs : List (List Char)}
    (h : MaximalRuns cs runs) : ∀ f ∈ runs, f ≠ [] := by
  induction h with
  | blank sp hsp => simp
  | run sp f rest runs hsp hne hf hrest h ih =>
    intro g hg
    rcases List.mem_cons.1 hg with rfl | hg
    · exact hne
    · exact ih g hg

theorem MaximalRuns.nil_iff {cs : List Char} {runs : List (List Char)}
    (h : MaximalRuns cs runs) : runs = [] ↔ ∀ c ∈ cs, isSpace c = true := by
  cases h with
  | blank sp hsp => simpa using hsp
  | run sp f rest runs hsp hne hf hrest h =>
    constructor
    · intro e
      cases e
    · intro hall
      exfalso
      cases f with
      | nil => exact hne rfl
      | cons c f =>
        have h1 := hall c (by simp)
        have h2 := hf c (by simp)
        rw [h1] at h2
        cases h2

theorem fieldsAux_spec (cs : List Char) :
    MaximalRuns cs (fieldsAux cs []) ∧
    ∀ cur : List Char, cur ≠ [] → ∃ f rest runs, cs = f ++ rest ∧
      (∀ c ∈ f, isSpace c = false) ∧ (∀ c ∈ rest.head?, isSpace c = true) ∧
      MaximalRuns rest runs ∧ fieldsAux cs cur = (cur ++ f) :: runs := by
  induction cs with
  | nil =>
    refine ⟨by simpa [fieldsAux] using MaximalRuns.blank [] (by simp), fun cur hcur => ?_⟩
    exact ⟨[], [], [], by simp, by simp, by simp, MaximalRuns.blank [] (by simp),
      by simp [fieldsAux, hcur]⟩
  | cons ch cs ih =>
    by_cases hch : isSpace ch = true
    · have h1 : MaximalRuns (ch :: cs) (fieldsAux cs []) := ih.1.cons_space hch
      refine ⟨by simpa [fieldsAux, hch] using h1, fun cur hcur => ?_⟩
      exact ⟨[], ch :: cs, fieldsAux cs [], by simp, by simp, by simpa using hch, h1,
        by simp [fieldsAux, hch, hcur]⟩
    · have hch' : isSpace ch = false := by simpa using hch
      constructor
      · obtain ⟨f, rest, runs, hcs, hf, hrest, hr, he⟩ := ih.2 [ch] (by simp)
        have := MaximalRuns.run [] (ch :: f) rest runs (by simp) (by simp)
          (by
            intro c hc
            rcases List.mem_cons.1 hc with rfl | hc
            · exact hch'
            · exact hf c hc) hrest hr
        simp only [fieldsAux, hch', Bool.false_eq_true, if_false, List.nil_append, he]
        subst hcs
        simpa using this
      · intro cur hcur
        obtain ⟨f, rest, runs, hcs, hf, hrest, hr, he⟩ := ih.2 (cur ++ [ch]) (by simp)
        refine ⟨ch :: f, rest, runs, by simp [hcs], ?_, hrest, hr, ?_⟩
        · intro c hc
          rcases List.mem_cons.1 hc with rfl | hc
          · exact hch'
          · exact hf c hc
        · simp [fieldsAux, hch', he]

theorem WhitespaceTokenize_eq (s : String) :
    WhitespaceTokenize s
      = [startToken] ++ (fieldsAux s.toList []).map (fun f => NewToken (String.mk f))
          ++ [endToken] := by
  simp [WhitespaceTokenize, Fields, NewToken, List.map_map, Function.comp_def]

theorem length_WhitespaceTokenize (s : String) :
    (WhitespaceTokenize s).length = (fieldsAux s.toList []).length + 2 := by
  rw [WhitespaceTokenize_eq]
  simp

theorem length_WhitespaceTokenize_le_iff (s : String) :
    (WhitespaceTokenize s).length ≤ NGrams ↔ ∀ ch ∈ s.toList, isSpace ch = true := by
  rw [length_WhitespaceTokenize, ← (fieldsAux_spec s.toList).1.nil_iff]
  simp only [NGrams]
  constructor
  · intro h
    exact List.length_eq_zero.1 (by omega)
  · intro h
    rw [h]
    simp

theorem special_positions (L : List Token) (hL : ∀ t ∈ L, t.isStart = false ∧ t.isEnd = false)
    (i : Nat) (t : Token) (h : ([startToken] ++ L ++ [endToken])[i]? = some t) :
    (t.isStart = true ↔ i = 0) ∧
      (t.isEnd = true ↔ i + 1 = ([startToken] ++ L ++ [endToken]).length) := by
  cases i with
  | zero =>
    simp at h
    subst h
    simp [startToken]
  | succ j =>
    simp only [List.singleton_append, List.cons_append, List.getElem?_cons_succ, List.nil_append] at h
    rcases Nat.lt_or_ge j L.length with hj | hj
    · rw [List.getElem?_append_left hj] at h
      have hm : t ∈ L := List.getElem?_mem h
      obtain ⟨h1, h2⟩ := hL t hm
      simp [h1, h2]
      omega
    · rw [List.getElem?_append_right hj] at h
      have hj0 : j - L.length = 0 := by
        by_contra hne
        obtain ⟨k, hk⟩ := Nat.exists_eq_succ_of_ne_zero hne
        rw [hk] at h
        simp at h
      rw [hj0] at h
      simp at h
      subst h
      simp [endToken]
      omega

/-- C8. `WhitespaceTokenize(s)` is the start token, then one literal token per maximal
run of non-whitespace characters of `s` in order, with the run as its text (never the
empty text), then the end token.  The result has at least two tokens, the start flag
is set exactly at the first position and the end flag exactly at the last, and a string
without a non-whitespace character gives exactly `[Start, End]`. -/
theorem whitespaceTokenize_spec (s : String) :
    ∃ runs : List (List Char), MaximalRuns s.toList runs ∧
      WhitespaceTokenize s
        = [startToken] ++ runs.map (fun r => NewToken (String.mk r)) ++ [endToken] ∧
      (∀ r ∈ runs, (NewToken (String.mk r)).value ≠ "") ∧
      2 ≤ (WhitespaceTokenize s).length ∧
      (∀ i t, (WhitespaceTokenize s)[i]? = some t →
        (t.isStart = true ↔ i = 0) ∧
          (t.isEnd = true ↔ i + 1 = (WhitespaceTokenize s).length)) ∧
      ((∀ c ∈ s.toList, isSpace c = true) → WhitespaceTokenize s = [startToken, endToken]) := by
  have hruns := (fieldsAux_spec s.toList).1
  refine ⟨fieldsAux s.toList [], hruns, WhitespaceTokenize_eq s, ?_, ?_, ?_, ?_⟩
  · intro r hr he
    have hne := hruns.ne_nil r hr
    apply hne
    simpa [NewToken, String.ext_iff] using he
  · rw [length_WhitespaceTokenize]
    omega
  · intro i t h
    rw [WhitespaceTokenize_eq] at h ⊢
    refine special_positions _ ?_ i t h
    intro u hu
    obtain ⟨r, -, rfl⟩ := List.mem_map.1 hu
    simp [NewToken]
  · intro hall
    rw [WhitespaceTokenize_eq, (hruns.nil_iff).2 hall]
    rfl

/-- C9. A line whose normalized and tokenized sequence has at most `NGrams` tokens is
discarded: `Update` returns and the chain is exactly as before.  With the default
hooks the tokenized sequence is `WhitespaceTokenize line`, and it has at most `NGrams`
tokens exactly when the line has no non-whitespace character. -/
theorem update_short_line_noop (c : Chain) (line : String) :
    (∀ toks, c.tokens line = .done toks → toks.length ≤ NGrams → c.Update line = .done c) ∧
    (c.useNormalize = false → c.tokenize = some WhitespaceTokenize →
      c.tokens line = .done (WhitespaceTokenize line)) ∧
    ((WhitespaceTokenize line).length ≤ NGrams ↔ ∀ ch ∈ line.toList, isSpace ch = true) := by
  refine ⟨fun toks h hlen => ?_, fun h1 h2 => ?_, length_WhitespaceTokenize_le_iff line⟩
  · simp [Chain.Update, h, Outcome.bind, hlen]
  · simp [Chain.tokens, h1, h2, Outcome.bind]

theorem trainAll_testChain :
    trainAll NewChain ["a b c", "b c d", "c d"] = .done testChain := rfl

/-- C9 at the blank line `" \t"` and the chain of the tests: the chain is unchanged. -/
theorem update_short_line_noop_witness : testChain.Update " \t" = .done testChain :=
  (update_short_line_noop testChain " \t").1 (WhitespaceTokenize " \t") rfl (by decide)

/-! ## Training: the loop of `Update` -/

theorem foldl_updateStep (tokens : List Token) :
    ∀ (rest : List Token) (k : Nat) (chains : List (Context × Suffixes)) (ngram : Context),
      tokens.drop (k + NGrams) = rest →
      ∃ g, (List.range' k rest.length).foldl (updateStep tokens) (.done (chains, ngram))
        = .done (updateLoop chains ngram rest, g) := by
  intro rest
  induction rest with
  | nil => intro k chains ngram _; exact ⟨ngram, by simp [updateLoop]⟩
  | cons s rest ih =>
    intro k chains ngram h
    have hs : tokens[k + NGrams]? = some s := by
      have := congrArg List.head? h
      simpa [List.head?_drop] using this
    have hrest : tokens.drop (k + 1 + NGrams) = rest := by
      have := congrArg List.tail h
      simpa [List.tail_drop, Nat.add_right_comm] using this
    simp only [List.length_cons, List.range'_succ, List.foldl_cons, updateStep, Outcome.bind,
      hs, updateLoop]
    exact ih (k + 1) _ _ hrest

theorem Update_eq_updateLoop (c : Chain) (line : String) (t0 t1 : Token) (rest : List Token)
    (h : c.tokens line = .done (t0 :: t1 :: rest)) :
    c.Update line = .done { c with chains := updateLoop c.chains (t0, t1) rest } := by
  cases rest with
  | nil => simp [Chain.Update, h, Outcome.bind, NGrams, updateLoop]
  | cons s rest =>
    obtain ⟨g, hg⟩ := foldl_updateStep (t0 :: t1 :: s :: rest) (s :: rest) 0 c.chains (t0, t1)
      (by simp [NGrams])
    simp only [List.length_cons] at hg
    simp [Chain.Update, h, Outcome.bind, NGrams, fillNGram, List.range_eq_range', hg]

theorem Update_eq (c : Chain) (line : String) (toks : List Token)
    (h : c.tokens line = .done toks) :
    c.Update line = .done { c with chains := updateTokens c.chains toks } := by
  match toks, h with
  | [], h => simp [Chain.Update, h, Outcome.bind, NGrams, updateTokens]
  | [a], h => simp [Chain.Update, h, Outcome.bind, NGrams, updateTokens]
  | t0 :: t1 :: rest, h => simpa [updateTokens] using Update_eq_updateLoop c line t0 t1 rest h

theorem tokens_with_chains (c : Chain) (chains : List (Context × Suffixes)) (line : String) :
    Chain.tokens { c with chains := chains } line = c.tokens line := rfl

theorem trainAll_eq (f : String → List Token) (lines : List String) :
    ∀ c : Chain, (∀ l, c.tokens l = .done (f l)) →
      trainAll c lines
        = .done { c with chains := lines.foldl (fun ch l => updateTokens ch (f l)) c.chains } := by
  induction lines with
  | nil => intro c _; rfl
  | cons l ls ih =>
    intro c hc
    simp only [trainAll, Update_eq c l (f l) (hc l), Outcome.bind, List.foldl_cons]
    exact ih _ (fun l' => by rw [tokens_with_chains]; exact hc l')

theorem NewChain_tokens (l : String) : NewChain.tokens l = .done (WhitespaceTokenize l) := rfl

/-! ## Training: what `observe` records -/

theorem mapGet_observe_self (chains : List (Context × Suffixes)) (ng : Context) (s : Token) :
    mapGet (observe chains ng s) ng
      = some (((mapGet chains ng).getD NewSuffixes).Update s) := by
  unfold observe
  cases h : mapGet chains ng <;> simp [mapGet_mapSet_self]

theorem mapGet_observe_ne (chains : List (Context × Suffixes)) {ng ctx : Context} (s : Token)
    (h : ng ≠ ctx) : mapGet (observe chains ng s) ctx = mapGet chains ctx := by
  unfold observe
  cases mapGet chains ng <;> simp [mapGet_mapSet_ne _ _ h]

theorem mem_mapKeys_observe (chains : List (Context × Suffixes)) (ng ctx : Context) (s : Token) :
    ctx ∈ mapKeys (observe chains ng s) ↔ ctx = ng ∨ ctx ∈ mapKeys chains := by
  unfold observe
  cases mapGet chains ng <;> simp [mem_mapKeys_mapSet]

theorem tableCount_observe (chains : List (Context × Suffixes)) (ng ctx : Context)
    (s u : Token) :
    tableCount (observe chains ng s) ctx u
      = if ng = ctx ∧ s = u then float32Succ (tableCount chains ctx u)
        else tableCount chains ctx u := by
  by_cases h : ng = ctx
  · subst h
    simp only [tableCount, mapGet_observe_self, true_and]
    cases hg : mapGet chains ng with
    | none =>
      simp only [Option.getD_none, Suffixes.count_Update]
      simp [NewSuffixes, Suffixes.count, mapGet]
    | some t => simp [Suffixes.count_Update]
  · simp [tableCount, mapGet_observe_ne chains s h, h]

/-! ## Training: counting transitions -/

theorem transitionCount_cons (a b s : Token) (rest : List Token) (ctx : Context) (u : Token) :
    transitionCount (a :: b :: s :: rest) ctx u
      = (if (a, b) = ctx ∧ s = u then 1 else 0) + transitionCount (b :: s :: rest) ctx u := by
  obtain ⟨x, y⟩ := ctx
  simp only [transitionCount, NGrams, List.length_cons, Nat.add_sub_cancel]
  rw [show rest.length + 1 + 1 + 1 - 2 = (rest.length + 1 + 1 - 2) + 1 by omega,
    List.range_succ_eq_map, List.countP_cons, List.countP_map, Nat.add_comm]
  congr 1
  · simp [Prod.ext_iff, and_assoc]
  · congr 1
    funext i
    simp

theorem transitionCount_short (toks : List Token) (h : toks.length ≤ NGrams) (ctx : Context)
    (u : Token) : transitionCount toks ctx u = 0 := by
  simp [transitionCount, Nat.sub_eq_zero_of_le h]

theorem tableCount_updateLoop (rest : List Token) :
    ∀ (chains : List (Context × Suffixes)) (a b : Token) (ctx : Context) (u : Token),
      tableCount (updateLoop chains (a, b) rest) ctx u
        = float32Succ^[transitionCount (a :: b :: rest) ctx u] (tableCount chains ctx u) := by
  induction rest with
  | nil =>
    intro chains a b ctx u
    simp [updateLoop, transitionCount_short, NGrams]
  | cons s rest ih =>
    intro chains a b ctx u
    simp only [updateLoop, shift, ih, tableCount_observe, transitionCount_cons]
    rw [Nat.add_comm, Function.iterate_add_apply]
    split_ifs <;> simp

theorem tableCount_updateTokens (chains : List (Context × Suffixes)) (toks : List Token)
    (ctx : Context) (u : Token) :
    tableCount (updateTokens chains toks) ctx u
      = float32Succ^[transitionCount toks ctx u] (tableCount chains ctx u) := by
  match toks with
  | [] => simp [updateTokens, transitionCount_short, NGrams]
  | [a] => simp [updateTokens, transitionCount_short, NGrams]
  | a :: b :: rest => simp [updateTokens, tableCount_updateLoop]

/-! ## Training: the contexts -/

theorem isWindow_cons (a b s : Token) (rest : List Token) (ctx : Context) :
    IsWindow (a :: b :: s :: rest) ctx ↔ ctx = (a, b) ∨ IsWindow (b :: s :: rest) ctx := by
  obtain ⟨x, y⟩ := ctx
  constructor
  · rintro ⟨i, hi, h1, h2⟩
    cases i with
    | zero =>
      left
      simp at h1 h2
      simp [h1, h2]
    | succ j =>
      right
      refine ⟨j, ?_, by simpa using h1, by simpa using h2⟩
      simp only [List.length_cons, NGrams] at hi ⊢
      omega
  · rintro (h | ⟨i, hi, h1, h2⟩)
    · cases h
      exact ⟨0, by simp [NGrams], by simp, by simp⟩
    · refine ⟨i + 1, ?_, by simpa using h1, by simpa using h2⟩
      simp only [List.length_cons, NGrams] at hi ⊢
      omega

theorem not_isWindow_short (toks : List Token) (h : toks.length ≤ NGrams) (ctx : Context) :
    ¬ IsWindow toks ctx := by
  rintro ⟨i, hi, -, -⟩
  omega

theorem mem_mapKeys_updateLoop (rest : List Token) :
    ∀ (chains : List (Context × Suffixes)) (a b : Token) (ctx : Context),
      ctx ∈ mapKeys (updateLoop chains (a, b) rest)
        ↔ ctx ∈ mapKeys chains ∨ IsWindow (a :: b :: rest) ctx := by
  induction rest with
  | nil =>
    intro chains a b ctx
    simp [updateLoop, not_isWindow_short, NGrams]
  | cons s rest ih =>
    intro chains a b ctx
    simp only [updateLoop, shift, ih, mem_mapKeys_observe, isWindow_cons]
    tauto

theorem mem_mapKeys_updateTokens (chains : List (Context × Suffixes)) (toks : List Token)
    (ctx : Context) :
    ctx ∈ mapKeys (updateTokens chains toks) ↔ ctx ∈ mapKeys chains ∨ IsWindow toks ctx := by
  match toks with
  | [] => simp [updateTokens, not_isWindow_short, NGrams]
  | [a] => simp [updateTokens, not_isWindow_short, NGrams]
  | a :: b :: rest => simp [updateTokens, mem_mapKeys_updateLoop]

theorem transitionCount_pos (toks : List Token) (i : Nat) (a b s : Token)
    (hi : i + NGrams < toks.length) (h0 : toks[i]? = some a) (h1 : toks[i + 1]? = some b)
    (h2 : toks[i + NGrams]? = some s) : 1 ≤ transitionCount toks (a, b) s := by
  unfold transitionCount
  apply List.countP_pos_iff.2
  exact ⟨i, List.mem_range.2 (by omega), by simp [h0, h1, h2]⟩

/-! ## Training: well-formed suffix tables -/

theorem mem_of_mapGet {κ ν : Type} [DecidableEq κ] (m : List (κ × ν)) (k : κ) (v : ν)
    (h : mapGet m k = some v) : (k, v) ∈ m := by
  induction m with
  | nil => simp [mapGet] at h
  | cons p rest ih =>
    obtain ⟨k0, v0⟩ := p
    by_cases h0 : k0 = k
    · simp [mapGet, h0] at h
      simp [h0, h]
    · simp only [mapGet, h0, if_false] at h
      exact List.mem_cons_of_mem _ (ih h)

theorem mem_mapSet {κ ν : Type} [DecidableEq κ] (m : List (κ × ν)) (k : κ) (v : ν)
    (p : κ × ν) (h : p ∈ mapSet m k v) : p = (k, v) ∨ p ∈ m := by
  induction m with
  | nil => simpa [mapSet] using h
  | cons q rest ih =>
    obtain ⟨k0, v0⟩ := q
    by_cases h0 : k0 = k
    · simp only [mapSet, h0, if_true, List.mem_cons] at h
      rcases h with h | h
      · exact Or.inl h
      · exact Or.inr (List.mem_cons_of_mem _ h)
    · simp only [mapSet, h0, if_false, List.mem_cons] at h
      rcases h with h | h
      · exact Or.inr (by simp [h])
      · rcases ih h with h | h
        · exact Or.inl h
        · exact Or.inr (List.mem_cons_of_mem _ h)

theorem Suffixes.wellFormed_Update (t : Suffixes) (s : Token)
    (h : t.WellFormed ∨ t = NewSuffixes) : (t.Update s).WellFormed := by
  have hc : t.suffixes.Nodup ∧ (∀ u ∈ t.suffixes, u ∈ mapKeys t.occurrences) ∧
      (∀ u ∈ mapKeys t.occurrences, u ∈ t.suffixes) ∧ (∀ u ∈ t.suffixes, 1 ≤ t.count u) := by
    rcases h with h | h
    · exact h.2
    · subst h
      simp [NewSuffixes, mapKeys]
  obtain ⟨hnd, h1, h2, h3⟩ := hc
  have hcount : ∀ u ∈ t.suffixes, 1 ≤ (t.Update s).count u := by
    intro u hu
    exact le_trans (h3 u hu) (t.le_count_Update s u)
  by_cases hs : s ∈ mapKeys t.occurrences
  · have hsuf := t.suffixes_Update_of_mem s hs
    refine ⟨?_, ?_, ?_, ?_, ?_⟩
    · rw [hsuf]
      exact List.ne_nil_of_mem (h2 s hs)
    · rw [hsuf]; exact hnd
    · intro u hu
      rw [hsuf] at hu
      exact (t.mem_keys_Update s u).2 (Or.inr (h1 u hu))
    · intro u hu
      rw [hsuf]
      rcases (t.mem_keys_Update s u).1 hu with rfl | hu
      · exact h2 _ hs
      · exact h2 u hu
    · intro u hu
      rw [hsuf] at hu
      exact hcount u hu
  · have hsuf := t.suffixes_Update_of_not_mem s hs
    have hns : s ∉ t.suffixes := fun hm => hs (h1 s hm)
    refine ⟨?_, ?_, ?_, ?_, ?_⟩
    · rw [hsuf]; simp
    · rw [hsuf]
      exact List.Nodup.append hnd (by simp) (by simpa using hns)
    · intro u hu
      rw [hsuf] at hu
      rcases List.mem_append.1 hu with hu | hu
      · exact (t.mem_keys_Update s u).2 (Or.inr (h1 u hu))
      · exact (t.mem_keys_Update s u).2 (Or.inl (by simpa using hu))
    · intro u hu
      rw [hsuf]
      rcases (t.mem_keys_Update s u).1 hu with rfl | hu
      · simp
      · exact List.mem_append_left _ (h2 u hu)
    · intro u hu
      rw [hsuf] at hu
      rcases List.mem_append.1 hu with hu | hu
      · exact hcount u hu
      · have : u = s := by simpa using hu
        subst this
        rw [Suffixes.count_Update_self]
        exact one_le_float32Succ _

theorem tableWellFormed_observe (chains : List (Context × Suffixes)) (ng : Context) (s : Token)
    (h : TableWellFormed chains) : TableWellFormed (observe chains ng s) := by
  intro p hp
  unfold observe at hp
  cases hg : mapGet chains ng with
  | none =>
    rw [hg] at hp
    rcases mem_mapSet _ _ _ _ hp with rfl | hp
    · exact Suffixes.wellFormed_Update _ s (Or.inr rfl)
    · exact h p hp
  | some t =>
    rw [hg] at hp
    rcases mem_mapSet _ _ _ _ hp with rfl | hp
    · exact Suffixes.wellFormed_Update t s (Or.inl (h _ (mem_of_mapGet _ _ _ hg)))
    · exact h p hp

theorem tableWellFormed_updateLoop (rest : List Token) :
    ∀ (chains : List (Context × Suffixes)) (ng : Context),
      TableWellFormed chains → TableWellFormed (updateLoop chains ng rest) := by
  induction rest with
  | nil => intro chains ng h; exact h
  | cons s rest ih =>
    intro chains ng h
    exact ih _ _ (tableWellFormed_observe chains ng s h)

theorem tableWellFormed_updateTokens (chains : List (Context × Suffixes)) (toks : List Token)
    (h : TableWellFormed chains) : TableWellFormed (updateTokens chains toks) := by
  match toks with
  | [] => exact h
  | [a] => exact h
  | a :: b :: rest => exact tableWellFormed_updateLoop rest chains (a, b) h

theorem tableWellFormed_foldl (f : String → List Token) (lines : List String) :
    ∀ chains : List (Context × Suffixes), TableWellFormed chains →
      TableWellFormed (lines.foldl (fun ch l => updateTokens ch (f l)) chains) := by
  induction lines with
  | nil => intro chains h; exact h
  | cons l ls ih =>
    intro chains h
    exact ih _ (tableWellFormed_updateTokens chains (f l) h)

theorem mem_tableSuffixes_of_count (chains : List (Context × Suffixes))
    (h : TableWellFormed chains) (ctx : Context) (s : Token)
    (hc : 1 ≤ tableCount chains ctx s) :
    ctx ∈ mapKeys chains ∧ s ∈ tableSuffixes chains ctx := by
  unfold tableCount at hc
  unfold tableSuffixes
  cases hg : mapGet chains ctx with
  | none => simp [hg] at hc
  | some t =>
    rw [hg] at hc
    simp only at hc
    refine ⟨(mapGet_isSome_iff chains ctx).1 (by simp [hg]), ?_⟩
    have hwf : t.WellFormed := h _ (mem_of_mapGet _ _ _ hg)
    apply hwf.2.2.2.1
    by_contra hn
    rw [t.count_eq_zero_of_not_mem s hn] at hc
    omega

theorem mem_mapKeys_foldl (f : String → List Token) (lines : List String) :
    ∀ (chains : List (Context × Suffixes)) (ctx : Context),
      ctx ∈ mapKeys (lines.foldl (fun ch l => updateTokens ch (f l)) chains)
        ↔ ctx ∈ mapKeys chains ∨ ∃ l ∈ lines, IsWindow (f l) ctx := by
  induction lines with
  | nil => intro chains ctx; simp
  | cons l ls ih =>
    intro chains ctx
    simp only [List.foldl_cons, ih, mem_mapKeys_updateTokens, List.mem_cons, exists_eq_or_imp]
    tauto

theorem tableCount_foldl (f : String → List Token) (lines : List String) :
    ∀ (chains : List (Context × Suffixes)) (ctx : Context) (s : Token),
      tableCount (lines.foldl (fun ch l => updateTokens ch (f l)) chains) ctx s
        = float32Succ^[(lines.map fun l => transitionCount (f l) ctx s).sum]
            (tableCount chains ctx s) := by
  induction lines with
  | nil => intro chains ctx s; simp
  | cons l ls ih =>
    intro chains ctx s
    simp only [List.foldl_cons, ih, tableCount_updateTokens, List.map_cons, List.sum_cons]
    rw [Nat.add_comm, Function.iterate_add_apply]

theorem tableCount_trained (lines : List String) (ctx : Context) (s : Token) :
    tableCount
        (lines.foldl (fun ch l => updateTokens ch (WhitespaceTokenize l)) NewChain.chains) ctx s
      = min (lines.map fun l => transitionCount (WhitespaceTokenize l) ctx s).sum 16777216 := by
  rw [tableCount_foldl, show tableCount NewChain.chains ctx s = 0 from rfl,
    iterate_float32Succ_zero]

theorem trainAll_default (lines : List String) :
    ∃ c, trainAll NewChain lines = .done c ∧
      c.chains = lines.foldl (fun ch l => updateTokens ch (WhitespaceTokenize l)) NewChain.chains ∧
      ∀ l, c.tokens l = .done (WhitespaceTokenize l) :=
  ⟨_, trainAll_eq WhitespaceTokenize lines NewChain NewChain_tokens, rfl,
    fun l => NewChain_tokens l⟩

theorem Update_default (c : Chain) (htok : ∀ l, c.tokens l = .done (WhitespaceTokenize l))
    (l : String) :
    ∃ c1, c.Update l = .done c1 ∧ c1.chains = updateTokens c.chains (WhitespaceTokenize l) ∧
      ∀ k, c1.tokens k = .done (WhitespaceTokenize k) :=
  ⟨_, Update_eq c l _ (htok l), rfl, fun k => by rw [tokens_with_chains]; exact htok k⟩

theorem le_sum_of_mem (xs : List Nat) (x : Nat) (h : x ∈ xs) : x ≤ xs.sum := by
  induction xs with
  | nil => cases h
  | cons y ys ih =>
    rcases List.mem_cons.1 h with rfl | h
    · simp
    · have := ih h
      simp only [List.sum_cons]
      omega

/-- C1, as the code has it.  Lines fed one by one through `Update` into an empty default
chain: a context is a key of the transition table iff it is a window, followed by a
token, of the token sequence of some trained line; the recorded count of `s` under `ctx`
is the number of positions, summed over the trained lines, where `ctx` is followed by
`s`, as long as that number is at most `2^24 = 16777216`, and `16777216` beyond, where
the `float32` counter no longer grows; and every window of a trained line that is
followed by a token is a key whose suffix table contains that token, with a count of at
least 1. -/
theorem update_records_transitions (lines : List String) :
    ∃ c, trainAll NewChain lines = .done c ∧
      (∀ ctx, ctx ∈ mapKeys c.chains ↔ ∃ l ∈ lines, IsWindow (WhitespaceTokenize l) ctx) ∧
      (∀ ctx s, tableCount c.chains ctx s
          = min (lines.map fun l => transitionCount (WhitespaceTokenize l) ctx s).sum 16777216) ∧
      (∀ ctx s, (lines.map fun l => transitionCount (WhitespaceTokenize l) ctx s).sum ≤ 16777216 →
          tableCount c.chains ctx s
            = (lines.map fun l => transitionCount (WhitespaceTokenize l) ctx s).sum) ∧
      (∀ l ∈ lines, ∀ i a b s, i + NGrams < (WhitespaceTokenize l).length →
          (WhitespaceTokenize l)[i]? = some a → (WhitespaceTokenize l)[i + 1]? = some b →
          (WhitespaceTokenize l)[i + NGrams]? = some s →
          (a, b) ∈ mapKeys c.chains ∧ s ∈ tableSuffixes c.chains (a, b) ∧
            1 ≤ tableCount c.chains (a, b) s) := by
  refine ⟨_, trainAll_eq WhitespaceTokenize lines NewChain NewChain_tokens, ?_, ?_, ?_, ?_⟩
  · intro ctx
    rw [mem_mapKeys_foldl]
    simp [NewChain, mapKeys]
  · intro ctx s
    exact tableCount_trained lines ctx s
  · intro ctx s hle
    exact (tableCount_trained lines ctx s).trans (min_eq_left hle)
  · intro l hl i a b s hi h0 h1 h2
    have hwf : TableWellFormed
        (lines.foldl (fun ch l => updateTokens ch (WhitespaceTokenize l)) NewChain.chains) :=
      tableWellFormed_foldl _ lines _ (by simp [TableWellFormed, NewChain])
    have hc : 1 ≤ tableCount
        (lines.foldl (fun ch l => updateTokens ch (WhitespaceTokenize l)) NewChain.chains)
        (a, b) s := by
      rw [tableCount_trained]
      have h3 := transitionCount_pos _ i a b s hi h0 h1 h2
      have h4 := le_sum_of_mem
        (lines.map fun l => transitionCount (WhitespaceTokenize l) (a, b) s) _
        (List.mem_map.2 ⟨l, hl, rfl⟩)
      exact le_min (le_trans h3 h4) (by decide)
    obtain ⟨hk, hs⟩ := mem_tableSuffixes_of_count _ hwf (a, b) s hc
    exact ⟨hk, hs, hc⟩

/-- C1 as amended, at the lines of `TestLearning`: `bc -> d` and `bc -> end` are each
recorded once, and the suffix table of `bc` contains `d`. -/
theorem update_records_transitions_witness :
    ∃ c, trainAll NewChain ["a b c", "b c d", "c d"] = .done c ∧
      tableCount c.chains (NewToken "b", NewToken "c") (NewToken "d") = 1 ∧
      tableCount c.chains (NewToken "b", NewToken "c") endToken = 1 ∧
      NewToken "d" ∈ tableSuffixes c.chains (NewToken "b", NewToken "c") := by
  obtain ⟨c, hc, -, -, hcount, hwin⟩ := update_records_transitions ["a b c", "b c d", "c d"]
  refine ⟨c, hc, ?_, ?_, ?_⟩
  · rw [hcount _ _ (by decide)]; decide
  · rw [hcount _ _ (by decide)]; decide
  · exact (hwin "b c d" (by simp) 1 (NewToken "b") (NewToken "c") (NewToken "d")
      (by decide) (by decide) (by decide) (by decide)).2.1

/-- C1 fails at the line `"a"` trained `16777217 = 2^24 + 1` times into the empty default
chain: the context `(Start, a)` is followed by `End` at 16777217 positions of the trained
lines, and its recorded count is 16777216, because the `float32` sum `16777216 + 1`
rounds to `16777216`. -/
theorem update_count_saturates :
    ∃ c, trainAll NewChain (List.replicate 16777217 "a") = .done c ∧
      tableCount c.chains (startToken, NewToken "a") endToken = 16777216 ∧
      ((List.replicate 16777217 "a").map fun l =>
        transitionCount (WhitespaceTokenize l) (startToken, NewToken "a") endToken).sum
          = 16777217 := by
  have hsum : ((List.replicate 16777217 "a").map fun l =>
      transitionCount (WhitespaceTokenize l) (startToken, NewToken "a") endToken).sum
        = 16777217 := by
    rw [List.map_replicate, List.sum_replicate, smul_eq_mul,
      show transitionCount (WhitespaceTokenize "a") (startToken, NewToken "a") endToken = 1
        by decide]
  obtain ⟨c, hc, hch, -⟩ := trainAll_default (List.replicate 16777217 "a")
  refine ⟨c, hc, ?_, hsum⟩
  rw [hch, tableCount_trained, hsum]
  decide

/-! ## Training the same line twice -/

theorem Update_done (c c1 : Chain) (line : String) (h : c.Update line = .done c1) :
    ∃ toks, c.tokens line = .done toks ∧
      c1 = { c with chains := updateTokens c.chains toks } := by
  cases ht : c.tokens line with
  | done toks =>
    rw [Update_eq c line toks ht] at h
    exact ⟨toks, rfl, by cases h; rfl⟩
  | panic => simp [Chain.Update, ht, Outcome.bind] at h
  | timeout => simp [Chain.Update, ht, Outcome.bind] at h

theorem updateLoop_eq_foldl (rest : List Token) :
    ∀ (chains : List (Context × Suffixes)) (ng : Context),
      updateLoop chains ng rest
        = (transitions ng rest).foldl (fun ch p => observe ch p.1 p.2) chains := by
  induction rest with
  | nil => intro chains ng; rfl
  | cons s rest ih => intro chains ng; simp [updateLoop, transitions, ih]

theorem recorded_observe_self (chains : List (Context × Suffixes)) (ng : Context) (s : Token) :
    Recorded (observe chains ng s) ng s :=
  ⟨_, mapGet_observe_self chains ng s, (Suffixes.mem_keys_Update _ s s).2 (Or.inl rfl)⟩

theorem recorded_observe (chains : List (Context × Suffixes)) (ng ctx : Context) (s u : Token)
    (h : Recorded chains ctx u) : Recorded (observe chains ng s) ctx u := by
  obtain ⟨t, ht, hu⟩ := h
  by_cases e : ng = ctx
  · subst e
    refine ⟨_, mapGet_observe_self chains ng s, ?_⟩
    rw [ht]
    exact (Suffixes.mem_keys_Update _ s u).2 (Or.inr hu)
  · exact ⟨t, by rw [mapGet_observe_ne chains s e]; exact ht, hu⟩

theorem tableSuffixes_observe_of_recorded (chains : List (Context × Suffixes))
    (ng ctx : Context) (s : Token) (h : Recorded chains ng s) :
    tableSuffixes (observe chains ng s) ctx = tableSuffixes chains ctx := by
  obtain ⟨t, ht, hs⟩ := h
  by_cases e : ng = ctx
  · subst e
    simp [tableSuffixes, mapGet_observe_self, ht, Suffixes.suffixes_Update_of_mem _ _ hs]
  · simp [tableSuffixes, mapGet_observe_ne chains s e]

theorem recorded_foldl (ps : List (Context × Token)) :
    ∀ (chains : List (Context × Suffixes)) (ctx : Context) (u : Token),
      Recorded chains ctx u ∨ (ctx, u) ∈ ps →
      Recorded (ps.foldl (fun ch p => observe ch p.1 p.2) chains) ctx u := by
  induction ps with
  | nil =>
    intro chains ctx u h
    rcases h with h | h
    · exact h
    · cases h
  | cons p ps ih =>
    intro chains ctx u h
    refine ih _ ctx u ?_
    rcases h with h | h
    · exact Or.inl (recorded_observe chains p.1 ctx p.2 u h)
    · rcases List.mem_cons.1 h with h | h
      · left
        subst h
        exact recorded_observe_self chains ctx u
      · exact Or.inr h

theorem tableSuffixes_foldl_of_recorded (ps : List (Context × Token)) :
    ∀ (chains : List (Context × Suffixes)) (ctx : Context),
      (∀ p ∈ ps, Recorded chains p.1 p.2) →
      tableSuffixes (ps.foldl (fun ch p => observe ch p.1 p.2) chains) ctx
        = tableSuffixes chains ctx := by
  induction ps with
  | nil => intro chains ctx _; rfl
  | cons p ps ih =>
    intro chains ctx h
    rw [List.foldl_cons, ih _ ctx, tableSuffixes_observe_of_recorded _ _ _ _ (h p (by simp))]
    intro q hq
    exact recorded_observe chains p.1 q.1 p.2 q.2 (h q (List.mem_cons_of_mem _ hq))

theorem tableSuffixes_updateTokens_twice (chains : List (Context × Suffixes))
    (toks : List Token) (ctx : Context) :
    tableSuffixes (updateTokens (updateTokens chains toks) toks) ctx
      = tableSuffixes (updateTokens chains toks) ctx := by
  match toks with
  | [] => rfl
  | [a] => rfl
  | a :: b :: rest =>
    simp only [updateTokens]
    rw [updateLoop_eq_foldl rest (updateLoop chains (a, b) rest)]
    apply tableSuffixes_foldl_of_recorded
    intro p hp
    rw [updateLoop_eq_foldl]
    exact recorded_foldl _ chains p.1 p.2 (Or.inr hp)

/-- C6, as the code has it.  Calling `Update` twice with the same line: the second call
returns, and it changes neither the set of contexts nor the ordered sequence of distinct
successors of any context; no count decreases; for every context and successor whose
count after the second call is below `2^24 = 16777216` the count added by the two calls
is twice the count added by the first, and from an empty table every such count after
the second call is double its value after the first. -/
theorem update_twice_same_line (c c1 : Chain) (l : String) (h1 : c.Update l = .done c1) :
    ∃ c2, c1.Update l = .done c2 ∧
      (∀ ctx, ctx ∈ mapKeys c2.chains ↔ ctx ∈ mapKeys c1.chains) ∧
      (∀ ctx, tableSuffixes c2.chains ctx = tableSuffixes c1.chains ctx) ∧
      (∀ ctx s, tableCount c.chains ctx s ≤ tableCount c1.chains ctx s ∧
          tableCount c1.chains ctx s ≤ tableCount c2.chains ctx s) ∧
      (∀ ctx s, tableCount c2.chains ctx s < 16777216 →
          tableCount c2.chains ctx s - tableCount c.chains ctx s
            = 2 * (tableCount c1.chains ctx s - tableCount c.chains ctx s)) ∧
      (c.chains = [] → ∀ ctx s, tableCount c2.chains ctx s < 16777216 →
          tableCount c2.chains ctx s = 2 * tableCount c1.chains ctx s) := by
  obtain ⟨toks, ht, rfl⟩ := Update_done c c1 l h1
  have hdiff : ∀ ctx s,
      tableCount (updateTokens (updateTokens c.chains toks) toks) ctx s < 16777216 →
      tableCount (updateTokens c.chains toks) ctx s
          = tableCount c.chains ctx s + transitionCount toks ctx s ∧
        tableCount (updateTokens (updateTokens c.chains toks) toks) ctx s
          = tableCount (updateTokens c.chains toks) ctx s + transitionCount toks ctx s := by
    intro ctx s hlt
    have h2 := tableCount_updateTokens (updateTokens c.chains toks) toks ctx s
    have h3 := tableCount_updateTokens c.chains toks ctx s
    have h4 := le_iterate_float32Succ (transitionCount toks ctx s)
      (tableCount (updateTokens c.chains toks) ctx s)
    rw [← h2] at h4
    refine ⟨?_, ?_⟩
    · rw [h3]
      apply iterate_float32Succ_of_lt
      rw [← h3]
      omega
    · rw [h2]
      apply iterate_float32Succ_of_lt
      rw [← h2]
      exact hlt
  refine ⟨_, Update_eq _ l toks (by rw [tokens_with_chains]; exact ht), ?_, ?_, ?_, ?_, ?_⟩
  · intro ctx
    simp only [mem_mapKeys_updateTokens]
    tauto
  · intro ctx
    exact tableSuffixes_updateTokens_twice c.chains toks ctx
  · intro ctx s
    simp only [tableCount_updateTokens]
    exact ⟨le_iterate_float32Succ _ _, le_iterate_float32Succ _ _⟩
  · intro ctx s hlt
    obtain ⟨e1, e2⟩ := hdiff ctx s hlt
    simp only at e1 e2 ⊢
    omega
  · intro he ctx s hlt
    obtain ⟨e1, e2⟩ := hdiff ctx s hlt
    have h0 : tableCount c.chains ctx s = 0 := by simp [he, tableCount, mapGet]
    simp only at e1 e2 ⊢
    omega

/-- C6 as amended, at the empty default chain and the line `"a a a"`: after the second
`Update` the count of `a` after `(a, a)` is 2, twice the count after the first. -/
theorem update_twice_same_line_witness :
    ∃ c1 c2, NewChain.Update "a a a" = .done c1 ∧ c1.Update "a a a" = .done c2 ∧
      tableSuffixes c2.chains (NewToken "a", NewToken "a")
        = tableSuffixes c1.chains (NewToken "a", NewToken "a") ∧
      tableCount c1.chains (NewToken "a", NewToken "a") (NewToken "a") = 1 ∧
      tableCount c2.chains (NewToken "a", NewToken "a") (NewToken "a") = 2 := by
  obtain ⟨c1, hc1⟩ : ∃ c1, NewChain.Update "a a a" = .done c1 := ⟨_, rfl⟩
  obtain ⟨c2, hc2, -, hsuf, -, -, hdouble⟩ := update_twice_same_line NewChain c1 "a a a" hc1
  have h1 : tableCount c1.chains (NewToken "a", NewToken "a") (NewToken "a") = 1 := by
    cases hc1
    decide
  have h2 : tableCount c2.chains (NewToken "a", NewToken "a") (NewToken "a") < 16777216 := by
    cases hc1
    cases hc2
    decide
  refine ⟨c1, c2, hc1, hc2, hsuf _, h1, ?_⟩
  rw [hdouble rfl _ _ h2, h1]

/-- C6 fails at the chain trained `16777215 = 2^24 - 1` times on the line `"a b"`: the
count of `b` after `(Start, a)` is 16777215 before, 16777216 after the first further
`Update("a b")` and still 16777216 after the second, so the two calls add 1, not twice
the 1 added by the first. -/
theorem update_twice_saturates :
    ∃ c c1 c2, trainAll NewChain (List.replicate 16777215 "a b") = .done c ∧
      c.Update "a b" = .done c1 ∧ c1.Update "a b" = .done c2 ∧
      tableCount c.chains (startToken, NewToken "a") (NewToken "b") = 16777215 ∧
      tableCount c1.chains (startToken, NewToken "a") (NewToken "b") = 16777216 ∧
      tableCount c2.chains (startToken, NewToken "a") (NewToken "b") = 16777216 ∧
      tableCount c2.chains (startToken, NewToken "a") (NewToken "b")
          - tableCount c.chains (startToken, NewToken "a") (NewToken "b")
        ≠ 2 * (tableCount c1.chains (startToken, NewToken "a") (NewToken "b")
          - tableCount c.chains (startToken, NewToken "a") (NewToken "b")) := by
  have hone : transitionCount (WhitespaceTokenize "a b") (startToken, NewToken "a")
      (NewToken "b") = 1 := by decide
  obtain ⟨c, hc, hch, htok⟩ := trainAll_default (List.replicate 16777215 "a b")
  obtain ⟨c1, hc1, hch1, htok1⟩ := Update_default c htok "a b"
  obtain ⟨c2, hc2, hch2, -⟩ := Update_default c1 htok1 "a b"
  have h0 : tableCount c.chains (startToken, NewToken "a") (NewToken "b") = 16777215 := by
    rw [hch, tableCount_trained, List.map_replicate, List.sum_replicate, smul_eq_mul, hone]
    decide
  have h1 : tableCount c1.chains (startToken, NewToken "a") (NewToken "b") = 16777216 := by
    rw [hch1, tableCount_updateTokens, h0, hone]
    decide
  have h2 : tableCount c2.chains (startToken, NewToken "a") (NewToken "b") = 16777216 := by
    rw [hch2, tableCount_updateTokens, h1, hone]
    decide
  refine ⟨c, c1, c2, hc, hc1, hc2, h0, h1, h2, ?_⟩
  rw [h0, h1, h2]
  decide

/-! ## Sampling -/

theorem range_three : List.range 3 = [0, 1, 2] := rfl

theorem range_two : List.range 2 = [0, 1] := rfl

theorem boundaries_three (w0 w1 w2 sum : ℚ) :
    (List.range NumSamples).foldl (boundariesStep [w0, w1, w2] sum)
        (.done (List.replicate NumSamples (.num 0), 0))
      = .done ([fdiv w0 sum, fdiv (w0 + w1) sum, fdiv (w0 + w1 + w2) sum], w0 + w1 + w2) := by
  simp [NumSamples, range_three, boundariesStep, Outcome.bind]

theorem weightedChoice_three (t0 t1 t2 : Token) (w0 w1 w2 r : ℚ) (h : w0 + w1 + w2 ≠ 0) :
    weightedChoice [t0, t1, t2] [w0, w1, w2] r
      = if w0 / (w0 + w1 + w2) ≤ r then
          if (w0 + w1) / (w0 + w1 + w2) ≤ r then
            if (w0 + w1 + w2) / (w0 + w1 + w2) ≤ r then .panic else .done t2
          else .done t1
        else .done t0 := by
  unfold weightedChoice
  rw [show List.foldl (fun sum e => sum + e) 0 [w0, w1, w2] = w0 + w1 + w2 by simp]
  simp only []
  rw [boundaries_three]
  simp only [Outcome.bind, fdiv, h, ne_eq, not_false_eq_true, if_true, List.length_cons,
    List.length_nil]
  simp only [scan, Quotient32.le, NumSamples, List.getElem?_cons_zero, List.getElem?_cons_succ,
    Bool.and_eq_true, decide_eq_true_eq]
  split_ifs <;> simp_all
  linarith


theorem getRandomSamples (s : Suffixes) (k : Nat) (x0 x1 : Token)
    (h0 : s.suffixes[(k + 0) % s.suffixes.length]? = some x0)
    (h1 : s.suffixes[(k + 1) % s.suffixes.length]? = some x1) :
    (List.range NGrams).foldl (getRandomStep s k)
        (.done (List.replicate NumSamples default, List.replicate NumSamples 0))
      = .done ([x0, x1, default], [(s.count x0 : ℚ), (s.count x1 : ℚ), 0]) := by
  simp only [Nat.add_zero] at h0
  simp [NGrams, NumSamples, range_two, getRandomStep, Outcome.bind, h0, h1]

theorem getRandom_eq (s : Suffixes) (d : Draw) (h : s.suffixes ≠ []) :
    ∃ x0 x1, x0 ∈ s.suffixes ∧ x1 ∈ s.suffixes ∧
      s.getRandom d = weightedChoice [x0, x1, default] [(s.count x0 : ℚ), (s.count x1 : ℚ), 0]
        d.float32 := by
  have hlen : 0 < s.suffixes.length := List.length_pos.2 h
  have hb : ∀ j, (d.intn % s.suffixes.length + j) % s.suffixes.length < s.suffixes.length :=
    fun j => Nat.mod_lt _ hlen
  refine ⟨s.suffixes.get ⟨(d.intn % s.suffixes.length + 0) % s.suffixes.length, hb 0⟩,
    s.suffixes.get ⟨(d.intn % s.suffixes.length + 1) % s.suffixes.length, hb 1⟩,
    List.get_mem _ _ _, List.get_mem _ _ _, ?_⟩
  unfold Suffixes.getRandom
  simp only [Nat.ne_of_gt hlen, if_false]
  rw [getRandomSamples s _ _ _ (List.getElem?_eq_getElem (hb 0))
    (List.getElem?_eq_getElem (hb 1))]
  rfl

theorem getRandom_mem (s : Suffixes) (d : Draw) (hs : s.WellFormed) (h1 : d.float32 < 1) :
    ∃ u ∈ s.suffixes, s.getRandom d = .done u := by
  obtain ⟨x0, x1, hx0, hx1, he⟩ := getRandom_eq s d hs.1
  have c0 : (1 : ℚ) ≤ s.count x0 := by exact_mod_cast hs.2.2.2.2 x0 hx0
  have c1 : (1 : ℚ) ≤ s.count x1 := by exact_mod_cast hs.2.2.2.2 x1 hx1
  have hsum : (s.count x0 : ℚ) + s.count x1 + 0 ≠ 0 := by
    have : (0 : ℚ) < (s.count x0 : ℚ) + s.count x1 + 0 := by linarith
    exact ne_of_gt this
  rw [weightedChoice_three _ _ _ _ _ _ _ hsum] at he
  have hone : ¬ ((s.count x0 : ℚ) + s.count x1) / ((s.count x0 : ℚ) + s.count x1 + 0)
      ≤ d.float32 := by
    rw [add_zero, div_self (by simpa using hsum)]
    linarith
  rw [if_neg hone] at he
  by_cases hb : (s.count x0 : ℚ) / ((s.count x0 : ℚ) + s.count x1 + 0) ≤ d.float32
  · exact ⟨x1, hx1, by rw [he, if_pos hb]⟩
  · exact ⟨x0, hx0, by rw [he, if_neg hb]⟩

/-! ## The walk -/

theorem withoutSpecials_append_singleton (toks : List Token) (t : Token) :
    withoutSpecials (toks ++ [t])
      = if t.isStart || t.isEnd then withoutSpecials toks else withoutSpecials toks ++ [t] := by
  unfold withoutSpecials
  rw [List.filter_append]
  cases h1 : t.isStart <;> cases h2 : t.isEnd <;> simp [List.filter_cons, h1, h2]

theorem mem_withoutSpecials (toks : List Token) (t : Token) (h : t ∈ withoutSpecials toks) :
    t.isStart = false ∧ t.isEnd = false := by
  have := (List.mem_filter.1 h).2
  simpa using this

theorem respondLoop_exit (chains : List (Context × Suffixes)) (maxLen : Int) (fuel : Nat)
    (ngram : Context) (i : Int) (toks : List Token) (rs : Rand) (h : ¬ i < maxLen) :
    respondLoop chains maxLen fuel ngram i toks rs = .done (toks, rs) := by
  cases fuel <;> simp [respondLoop, h]

theorem respondLoop_zero (chains : List (Context × Suffixes)) (maxLen : Int)
    (ngram : Context) (i : Int) (toks : List Token) (rs : Rand) (h : i < maxLen) :
    respondLoop chains maxLen 0 ngram i toks rs = .timeout := by
  simp [respondLoop, h]

theorem respondLoop_succ (chains : List (Context × Suffixes)) (maxLen : Int) (fuel : Nat)
    (ngram : Context) (i : Int) (toks : List Token) (rs : Rand) (h : i < maxLen) :
    respondLoop chains maxLen (fuel + 1) ngram i toks rs
      = match mapGet chains ngram with
        | none => .done (toks ++ [ngram.1], rs)
        | some suffixes =>
          (suffixes.getRandom (rs 0)).bind fun suffix =>
            respondLoop chains maxLen fuel (shift ngram suffix)
              ((if ngram.1.isStart || ngram.1.isEnd then i - 1 else i) + 1)
              (toks ++ [ngram.1]) rs.next := by
  simp [respondLoop, h]

theorem respondLoop_bound (chains : List (Context × Suffixes)) (maxLen : Int) :
    ∀ (fuel : Nat) (ngram : Context) (i : Int) (toks : List Token) (rs : Rand)
      (res : List Token × Rand),
      ((withoutSpecials toks).length : Int) = i → i ≤ maxLen →
      respondLoop chains maxLen fuel ngram i toks rs = .done res →
      ((withoutSpecials res.1).length : Int) ≤ maxLen := by
  intro fuel
  induction fuel with
  | zero =>
    intro ngram i toks rs res hc hi h
    by_cases hlt : i < maxLen
    · rw [respondLoop_zero _ _ _ _ _ _ hlt] at h
      cases h
    · rw [respondLoop_exit _ _ _ _ _ _ _ hlt] at h
      cases h
      simpa [hc] using hi
  | succ fuel ih =>
    intro ngram i toks rs res hc hi h
    by_cases hlt : i < maxLen
    · have hstep : ((withoutSpecials (toks ++ [ngram.1])).length : Int)
          = (if (ngram.1.isStart || ngram.1.isEnd) = true then i - 1 else i) + 1 := by
        rw [withoutSpecials_append_singleton]
        by_cases hsp : (ngram.1.isStart || ngram.1.isEnd) = true
        · rw [if_pos hsp, if_pos hsp]
          omega
        · rw [if_neg hsp, if_neg hsp, List.length_append, List.length_singleton]
          push_cast
          omega
      have hnext : (if (ngram.1.isStart || ngram.1.isEnd) = true then i - 1 else i) + 1
          ≤ maxLen := by
        split_ifs <;> omega
      rw [respondLoop_succ _ _ _ _ _ _ _ hlt] at h
      cases hg : mapGet chains ngram with
      | none =>
        rw [hg] at h
        cases h
        exact le_trans (le_of_eq hstep) hnext
      | some suffixes =>
        rw [hg] at h
        cases hr : suffixes.getRandom (rs 0) with
        | done suffix =>
          simp only [hr, Outcome.bind] at h
          exact ih _ _ _ _ res hstep hnext h
        | panic => simp [hr, Outcome.bind] at h
        | timeout => simp [hr, Outcome.bind] at h
    · rw [respondLoop_exit _ _ _ _ _ _ _ hlt] at h
      cases h
      simpa [hc] using hi

theorem respond_bound (c : Chain) (seed : Context) (maxLen : Int) (rs : Rand) (fuel : Nat)
    (res : List Token × Rand) (h : c.respond seed maxLen rs fuel = .done res) :
    0 ≤ maxLen ∧ (res.1.length : Int) ≤ maxLen ∧
      ∀ t ∈ res.1, t.isStart = false ∧ t.isEnd = false := by
  unfold Chain.respond at h
  by_cases hneg : maxLen < 0 ∨ (makeCapLimit : Int) < maxLen
  · simp [hneg] at h
  rw [if_neg hneg] at h
  have hpos : 0 ≤ maxLen := not_lt.1 fun hlt => hneg (Or.inl hlt)
  cases hl : respondLoop c.chains maxLen fuel seed 0 [] rs with
  | done st =>
    simp only [hl, Outcome.bind] at h
    cases h
    have hb := respondLoop_bound c.chains maxLen fuel seed 0 [] rs st (by simp [withoutSpecials])
      (by omega) hl
    exact ⟨hpos, hb, fun t ht => mem_withoutSpecials st.1 t ht⟩
  | panic => simp [hl, Outcome.bind] at h
  | timeout => simp [hl, Outcome.bind] at h

/-- What `Respond` accepts: a sequence without special tokens whose length is above
`minLen` and at most `maxLen`. -/
theorem inputSeedLoop_accepts (c : Chain) (tokens : List Token) (minLen maxLen : Int)
    (fuel : Nat) :
    ∀ (indexOrder : List Nat) (rs : Rand) (toks : List Token) (rs2 : Rand),
      inputSeedLoop c tokens minLen maxLen fuel indexOrder rs = .done (some toks, rs2) →
      minLen < toks.length ∧ (toks.length : Int) ≤ maxLen ∧
        ∀ t ∈ toks, t.isStart = false ∧ t.isEnd = false := by
  intro indexOrder
  induction indexOrder with
  | nil => intro rs toks rs2 h; simp [inputSeedLoop] at h
  | cons i rest ih =>
    intro rs toks rs2 h
    unfold inputSeedLoop at h
    cases hf : fillNGram tokens i with
    | done ngram =>
      simp only [hf, Outcome.bind] at h
      cases hg : mapGet c.chains ngram with
      | none =>
        rw [hg] at h
        exact ih rs toks rs2 h
      | some t =>
        rw [hg] at h
        cases hr : c.respond ngram maxLen rs fuel with
        | done st =>
          simp only [hr] at h
          split_ifs at h with hlen
          · cases h
            obtain ⟨-, h2, h3⟩ := respond_bound c ngram maxLen rs fuel st hr
            exact ⟨by omega, h2, h3⟩
          · exact ih _ toks rs2 h
        | panic => simp [hr] at h
        | timeout => simp [hr] at h
    | panic => simp [hf, Outcome.bind] at h
    | timeout => simp [hf, Outcome.bind] at h

theorem tableSeedLoop_accepts (c : Chain) (minLen maxLen : Int) (fuel : Nat) :
    ∀ (rangeOrder : List Context) (rs : Rand) (toks : List Token) (rs2 : Rand),
      tableSeedLoop c minLen maxLen fuel rangeOrder rs = .done (some toks, rs2) →
      minLen < toks.length ∧ (toks.length : Int) ≤ maxLen ∧
        ∀ t ∈ toks, t.isStart = false ∧ t.isEnd = false := by
  intro rangeOrder
  induction rangeOrder with
  | nil => intro rs toks rs2 h; simp [tableSeedLoop] at h
  | cons ngram rest ih =>
    intro rs toks rs2 h
    unfold tableSeedLoop at h
    cases hr : c.respond ngram maxLen rs fuel with
    | done st =>
      simp only [hr, Outcome.bind] at h
      split_ifs at h with hlen
      · cases h
        obtain ⟨-, h2, h3⟩ := respond_bound c ngram maxLen rs fuel st hr
        exact ⟨by omega, h2, h3⟩
      · exact ih _ toks rs2 h
    | panic => simp [hr, Outcome.bind] at h
    | timeout => simp [hr, Outcome.bind] at h

theorem responseToks_accepts (c : Chain) (input : String) (minLen maxLen : Int)
    (indexOrder : List Nat) (rangeOrder : List Context) (rs : Rand) (fuel : Nat)
    (toks : List Token)
    (h : c.responseToks input minLen maxLen indexOrder rangeOrder rs fuel = .done (some toks)) :
    minLen < toks.length ∧ (toks.length : Int) ≤ maxLen ∧
      ∀ t ∈ toks, t.isStart = false ∧ t.isEnd = false := by
  unfold Chain.responseToks at h
  cases ht : c.tokens input with
  | done tokens =>
    simp only [ht, Outcome.bind] at h
    split at h
    · rename_i st hst
      split at h
      · rename_i toks' htoks
        cases h
        obtain ⟨o, rs2⟩ := st
        simp only at htoks
        subst htoks
        split_ifs at hst with hlen
        · exact inputSeedLoop_accepts c tokens minLen maxLen fuel _ _ _ _ hst
        · cases hst
      · rename_i hnone
        split at h
        · rename_i st2 hst2
          obtain ⟨o2, rs3⟩ := st2
          cases h
          exact tableSeedLoop_accepts c minLen maxLen fuel _ _ _ _ hst2
        · cases h
        · cases h
    · cases h
    · cases h
  | panic => simp [ht, Outcome.bind] at h
  | timeout => simp [ht, Outcome.bind] at h

/-! ## The scenario of `TestRespond` -/

theorem validDraws_next (rs : Rand) (h : ValidDraws rs) : ValidDraws rs.next :=
  fun n => h (n + 1)

theorem tableWellFormed_testChain : TableWellFormed testChain.chains := by decide

theorem getRandom_of_mapGet (chains : List (Context × Suffixes)) (hwf : TableWellFormed chains)
    (ngram : Context) (t : Suffixes) (hg : mapGet chains ngram = some t) (rs : Rand)
    (hrs : ValidDraws rs) : ∃ u ∈ t.suffixes, t.getRandom (rs 0) = .done u :=
  getRandom_mem t (rs 0) (hwf _ (mem_of_mapGet _ _ _ hg)) (hrs 0).2

theorem respondLoop_step (chains : List (Context × Suffixes)) (hwf : TableWellFormed chains)
    (maxLen : Int) (fuel : Nat) (ngram : Context) (i : Int) (toks : List Token) (rs : Rand)
    (hrs : ValidDraws rs) (h : i < maxLen) (t : Suffixes) (hg : mapGet chains ngram = some t) :
    ∃ u ∈ t.suffixes, respondLoop chains maxLen (fuel + 1) ngram i toks rs
      = respondLoop chains maxLen fuel (shift ngram u)
          ((if ngram.1.isStart || ngram.1.isEnd then i - 1 else i) + 1)
          (toks ++ [ngram.1]) rs.next := by
  obtain ⟨u, hu, he⟩ := getRandom_of_mapGet chains hwf ngram t hg rs hrs
  refine ⟨u, hu, ?_⟩
  rw [respondLoop_succ _ _ _ _ _ _ _ h, hg]
  simp only [he, Outcome.bind]

theorem respondLoop_break (chains : List (Context × Suffixes)) (maxLen : Int) (fuel : Nat)
    (ngram : Context) (i : Int) (toks : List Token) (rs : Rand) (h : i < maxLen)
    (hg : mapGet chains ngram = none) :
    respondLoop chains maxLen (fuel + 1) ngram i toks rs = .done (toks ++ [ngram.1], rs) := by
  rw [respondLoop_succ _ _ _ _ _ _ _ h, hg]

theorem testChain_walk_ab (rs : Rand) (hrs : ValidDraws rs) (fuel : Nat) (toks : List Token) :
    ∃ rs2, respondLoop testChain.chains 3 (fuel + 3) (NewToken "a", NewToken "b") 0 toks rs
      = .done (toks ++ [NewToken "a", NewToken "b", NewToken "c"], rs2) := by
  obtain ⟨u1, hu1, e1⟩ := respondLoop_step testChain.chains tableWellFormed_testChain 3
    (fuel + 2) (NewToken "a", NewToken "b") 0 toks rs hrs (by decide) _ rfl
  obtain rfl : u1 = NewToken "c" := by simpa using hu1
  have e1 : respondLoop testChain.chains 3 (fuel + 3) (NewToken "a", NewToken "b") 0 toks rs
      = respondLoop testChain.chains 3 (fuel + 2) (NewToken "b", NewToken "c") 1
          (toks ++ [NewToken "a"]) rs.next := e1
  obtain ⟨u2, hu2, e2⟩ := respondLoop_step testChain.chains tableWellFormed_testChain 3
    (fuel + 1) (NewToken "b", NewToken "c") 1 (toks ++ [NewToken "a"]) rs.next
    (validDraws_next rs hrs) (by decide) _ rfl
  have e2 : respondLoop testChain.chains 3 (fuel + 2) (NewToken "b", NewToken "c") 1
        (toks ++ [NewToken "a"]) rs.next
      = respondLoop testChain.chains 3 (fuel + 1) (NewToken "c", u2) 2
          (toks ++ [NewToken "a"] ++ [NewToken "b"]) rs.next.next := e2
  rw [e1, e2]
  have hu2 : u2 = endToken ∨ u2 = NewToken "d" := by simpa using hu2
  rcases hu2 with rfl | rfl
  · refine ⟨rs.next.next, ?_⟩
    rw [respondLoop_break testChain.chains 3 fuel (NewToken "c", endToken) 2 _ _ (by decide)
      rfl]
    simp
  · obtain ⟨u3, hu3, e3⟩ := respondLoop_step testChain.chains tableWellFormed_testChain 3
      fuel (NewToken "c", NewToken "d") 2 (toks ++ [NewToken "a"] ++ [NewToken "b"])
      rs.next.next (validDraws_next _ (validDraws_next rs hrs)) (by decide) _ rfl
    have e3 : respondLoop testChain.chains 3 (fuel + 1) (NewToken "c", NewToken "d") 2
          (toks ++ [NewToken "a"] ++ [NewToken "b"]) rs.next.next
        = respondLoop testChain.chains 3 fuel (NewToken "d", u3) 3
            (toks ++ [NewToken "a"] ++ [NewToken "b"] ++ [NewToken "c"]) rs.next.next.next := e3
    refine ⟨rs.next.next.next, ?_⟩
    rw [e3, respondLoop_exit _ _ _ _ _ _ _ (by decide)]
    simp

theorem testChain_walk_start (rs : Rand) (hrs : ValidDraws rs) (fuel : Nat) :
    ∃ rs2, respondLoop testChain.chains 3 (fuel + 4) (startToken, NewToken "a") 0 [] rs
      = .done ([startToken, NewToken "a", NewToken "b", NewToken "c"], rs2) := by
  obtain ⟨u1, hu1, e1⟩ := respondLoop_step testChain.chains tableWellFormed_testChain 3
    (fuel + 3) (startToken, NewToken "a") 0 [] rs hrs (by decide) _ rfl
  obtain rfl : u1 = NewToken "b" := by simpa using hu1
  have e1 : respondLoop testChain.chains 3 (fuel + 4) (startToken, NewToken "a") 0 [] rs
      = respondLoop testChain.chains 3 (fuel + 3) (NewToken "a", NewToken "b") 0
          [startToken] rs.next := e1
  obtain ⟨rs2, e2⟩ := testChain_walk_ab rs.next (validDraws_next rs hrs) fuel [startToken]
  exact ⟨rs2, by rw [e1, e2]; rfl⟩

/-- The walk of `TestRespond` from either window of the input that is a key: the stripped
result is `a b c`. -/
theorem testChain_respond (rs : Rand) (hrs : ValidDraws rs) (fuel : Nat) (hf : 4 ≤ fuel)
    (seed : Context) (h : seed = (startToken, NewToken "a") ∨ seed = (NewToken "a", NewToken "b")) :
    ∃ rs2, testChain.respond seed 3 rs fuel
      = .done ([NewToken "a", NewToken "b", NewToken "c"], rs2) := by
  obtain ⟨f, rfl⟩ : ∃ f, fuel = f + 4 := ⟨fuel - 4, by omega⟩
  rcases h with rfl | rfl
  · obtain ⟨rs2, e⟩ := testChain_walk_start rs hrs f
    refine ⟨rs2, ?_⟩
    unfold Chain.respond
    rw [if_neg (by decide), e]
    rfl
  · obtain ⟨rs2, e⟩ := testChain_walk_ab rs hrs (f + 1) []
    refine ⟨rs2, ?_⟩
    unfold Chain.respond
    rw [if_neg (by decide), e]
    rfl

theorem testChain_inputSeedLoop (fuel : Nat) (hf : 4 ≤ fuel) :
    ∀ (indexOrder : List Nat) (rs : Rand), (∀ i ∈ indexOrder, i < 3) →
      (0 ∈ indexOrder ∨ 1 ∈ indexOrder) → ValidDraws rs →
      ∃ rs2, inputSeedLoop testChain [startToken, NewToken "a", NewToken "b", endToken] 2 3
          fuel indexOrder rs
        = .done (some [NewToken "a", NewToken "b", NewToken "c"], rs2) := by
  intro indexOrder
  induction indexOrder with
  | nil => intro rs _ h _; simp at h
  | cons i rest ih =>
    intro rs hlt hmem hrs
    have hi : i < 3 := hlt i (by simp)
    have accept : ∀ seed : Context,
        fillNGram [startToken, NewToken "a", NewToken "b", endToken] i = .done seed →
        (mapGet testChain.chains seed).isSome = true →
        (seed = (startToken, NewToken "a") ∨ seed = (NewToken "a", NewToken "b")) →
        ∃ rs2, inputSeedLoop testChain [startToken, NewToken "a", NewToken "b", endToken] 2 3
            fuel (i :: rest) rs
          = .done (some [NewToken "a", NewToken "b", NewToken "c"], rs2) := by
      intro seed hfill hsome hseed
      obtain ⟨rs2, e⟩ := testChain_respond rs hrs fuel hf seed hseed
      obtain ⟨t, ht⟩ := Option.isSome_iff_exists.1 hsome
      refine ⟨rs2, ?_⟩
      unfold inputSeedLoop
      simp only [hfill, Outcome.bind, ht, e]
      simp
    interval_cases i
    · exact accept _ rfl (by decide) (Or.inl rfl)
    · exact accept _ rfl (by decide) (Or.inr rfl)
    · have hrest : 0 ∈ rest ∨ 1 ∈ rest := by
        rcases hmem with h | h
        · exact Or.inl (by simpa using h)
        · exact Or.inr (by simpa using h)
      obtain ⟨rs2, e⟩ := ih rs (fun j hj => hlt j (List.mem_cons_of_mem _ hj)) hrest hrs
      refine ⟨rs2, ?_⟩
      unfold inputSeedLoop
      have hfill : fillNGram [startToken, NewToken "a", NewToken "b", endToken] 2
          = .done (NewToken "b", endToken) := rfl
      have hnone : mapGet testChain.chains (NewToken "b", endToken) = none := by decide
      simp only [hfill, Outcome.bind, hnone]
      exact e

theorem testChain_Respond (indexOrder : List Nat) (hperm : indexOrder.Perm [0, 1, 2])
    (rangeOrder : List Context) (rs : Rand) (hrs : ValidDraws rs) (fuel : Nat) (hf : 4 ≤ fuel) :
    testChain.Respond "a b" 2 3 indexOrder rangeOrder rs fuel = .done ("a b c", none) := by
  have hlt : ∀ i ∈ indexOrder, i < 3 := by
    intro i hi
    have := hperm.subset hi
    simp at this
    omega
  have h0 : 0 ∈ indexOrder := hperm.symm.subset (by simp)
  obtain ⟨rs2, e⟩ := testChain_inputSeedLoop fuel hf indexOrder rs hlt (Or.inl h0) hrs
  have htok : testChain.tokens "a b"
      = .done [startToken, NewToken "a", NewToken "b", endToken] := rfl
  unfold Chain.Respond Chain.responseToks
  rw [if_neg (by decide), htok]
  simp only [Outcome.bind, List.length_cons, List.length_nil, NGrams]
  rw [if_pos (by decide), e]
  simp only []
  rfl

theorem validDraws_zero : ValidDraws fun _ => ⟨0, 0⟩ := fun _ => by simp

/-- C2. After `Update("a b c")`, `Update("b c d")`, `Update("c d")` on an empty default
chain, `Respond("a b", 2, 3)` returns `"a b c"` and no error: for every permutation
`indexOrder` of the three windows of the input, every iteration order of the table, every
stream of draws (any start index, any `r` in `[0, 1)`), given fuel for four loop
iterations per walk. -/
theorem respond_test_scenario (c : Chain)
    (hc : trainAll NewChain ["a b c", "b c d", "c d"] = .done c)
    (indexOrder : List Nat)
    (hperm : indexOrder.Perm (List.range ((WhitespaceTokenize "a b").length - NGrams + 1)))
    (rangeOrder : List Context) (rs : Rand) (hrs : ValidDraws rs) (fuel : Nat) (hf : 4 ≤ fuel) :
    c.Respond "a b" 2 3 indexOrder rangeOrder rs fuel = .done ("a b c", none) := by
  obtain rfl : testChain = c := by
    rw [trainAll_testChain] at hc
    cases hc
    rfl
  have hrange : List.range ((WhitespaceTokenize "a b").length - NGrams + 1) = [0, 1, 2] := by
    decide
  rw [hrange] at hperm
  exact testChain_Respond indexOrder hperm rangeOrder rs hrs fuel hf

/-- C2 with the windows tried in order, the table ranged over in insertion order and every
draw zero. -/
theorem respond_test_scenario_witness :
    testChain.Respond "a b" 2 3 [0, 1, 2] (mapKeys testChain.chains) (fun _ => ⟨0, 0⟩) 4
      = .done ("a b c", none) :=
  respond_test_scenario testChain trainAll_testChain [0, 1, 2] (by decide)
    (mapKeys testChain.chains) (fun _ => ⟨0, 0⟩) validDraws_zero 4 (by decide)

/-- C3. Whenever `Respond` returns without error, the token sequence it accepted and
joined contains no start or end token, and its length `n` satisfies
`minLen < n ≤ maxLen`. -/
theorem respond_length_bounds (c : Chain) (input : String) (minLen maxLen : Int)
    (indexOrder : List Nat) (rangeOrder : List Context) (rs : Rand) (fuel : Nat)
    (response : String)
    (h : c.Respond input minLen maxLen indexOrder rangeOrder rs fuel
      = .done (response, none)) :
    ∃ toks, c.responseToks input minLen maxLen indexOrder rangeOrder rs fuel
        = .done (some toks) ∧
      response = joinTokens toks ∧
      (∀ t ∈ toks, t.isStart = false ∧ t.isEnd = false) ∧
      minLen < toks.length ∧ (toks.length : Int) ≤ maxLen := by
  unfold Chain.Respond at h
  by_cases he : c.chains.length = 0
  · simp [he] at h
  rw [if_neg he] at h
  cases hr : c.responseToks input minLen maxLen indexOrder rangeOrder rs fuel with
  | done r =>
    cases r with
    | none => simp [hr, Outcome.bind] at h
    | some toks =>
      simp only [hr, Outcome.bind, Outcome.done.injEq, Prod.mk.injEq, and_true] at h
      obtain ⟨h1, h2, h3⟩ := responseToks_accepts c input minLen maxLen indexOrder rangeOrder
        rs fuel toks hr
      exact ⟨toks, rfl, h.symm, h3, h1, h2⟩
  | panic => simp [hr, Outcome.bind] at h
  | timeout => simp [hr, Outcome.bind] at h

/-- C3 at the call of `TestRespond`, with the windows tried in order and every draw
`(1, 0)`: the accepted sequence has three tokens, `2 < 3 ≤ 3`. -/
theorem respond_length_bounds_witness :
    ∃ toks, testChain.responseToks "a b" 2 3 [0, 1, 2] (mapKeys testChain.chains)
        (fun _ => ⟨1, 0⟩) 4 = .done (some toks) ∧
      "a b c" = joinTokens toks ∧
      (∀ t ∈ toks, t.isStart = false ∧ t.isEnd = false) ∧
      (2 : Int) < toks.length ∧ (toks.length : Int) ≤ 3 :=
  respond_length_bounds testChain "a b" 2 3 [0, 1, 2] (mapKeys testChain.chains)
    (fun _ => ⟨1, 0⟩) 4 "a b c"
    (testChain_Respond [0, 1, 2] (List.Perm.refl _) _ _ (fun _ => by simp) 4 (by decide))

theorem foldl_updateTokens_short (f : String → List Token) (lines : List String)
    (h : ∀ l ∈ lines, (f l).length ≤ NGrams) (chains : List (Context × Suffixes)) :
    lines.foldl (fun ch l => updateTokens ch (f l)) chains = chains := by
  induction lines with
  | nil => rfl
  | cons l ls ih =>
    have hl : updateTokens chains (f l) = chains := by
      have := h l (by simp)
      match hfl : f l with
      | [] => rfl
      | [a] => rfl
      | [a, b] => rfl
      | a :: b :: s :: rest =>
        rw [hfl] at this
        simp [NGrams] at this
    rw [List.foldl_cons, hl]
    exact ih (fun l' hl' => h l' (List.mem_cons_of_mem _ hl'))

/-- C4. On a chain whose transition table has no contexts `Respond` returns the empty
string and the error `"cannot Respond with no chains built"`, whatever the input, the
bounds and the draws; a fresh chain, and a default chain that was only updated with
lines of at most `NGrams` tokens, have such a table.  When the table has a context,
`Respond` never returns that error. -/
theorem respond_empty_model (c : Chain) (input : String) (minLen maxLen : Int)
    (indexOrder : List Nat) (rangeOrder : List Context) (rs : Rand) (fuel : Nat) :
    (c.chains = [] →
      c.Respond input minLen maxLen indexOrder rangeOrder rs fuel
        = .done ("", some errEmptyModel)) ∧
    (c.chains ≠ [] → ∀ response,
      c.Respond input minLen maxLen indexOrder rangeOrder rs fuel
        ≠ .done (response, some errEmptyModel)) ∧
    NewChain.chains = [] ∧
    (∀ tokenize normalize, (NewCustomChain tokenize normalize).chains = []) ∧
    (∀ lines : List String, (∀ l ∈ lines, (WhitespaceTokenize l).length ≤ NGrams) →
      ∃ c1, trainAll NewChain lines = .done c1 ∧ c1.chains = []) ∧
    errEmptyModel = "cannot Respond with no chains built" := by
  refine ⟨fun h => ?_, fun h response hr => ?_, rfl, fun _ _ => rfl, fun lines hl => ?_, rfl⟩
  · simp [Chain.Respond, h]
  · unfold Chain.Respond at hr
    rw [if_neg (by simpa using h)] at hr
    cases hres : c.responseToks input minLen maxLen indexOrder rangeOrder rs fuel with
    | done r =>
      cases r with
      | none =>
        simp only [hres, Outcome.bind, Outcome.done.injEq, Prod.mk.injEq, Option.some.injEq]
          at hr
        exact absurd hr.2 (by decide)
      | some toks => simp [hres, Outcome.bind] at hr
    | panic => simp [hres, Outcome.bind] at hr
    | timeout => simp [hres, Outcome.bind] at hr
  · refine ⟨_, trainAll_eq WhitespaceTokenize lines NewChain NewChain_tokens, ?_⟩
    exact foldl_updateTokens_short WhitespaceTokenize lines hl _

/-- C4 at the fresh default chain and at the chain of the tests: the first call fails with
the empty-model error, the second does not. -/
theorem respond_empty_model_witness :
    NewChain.Respond "a b" 2 3 [0, 1, 2] [] (fun _ => ⟨0, 0⟩) 4
        = .done ("", some errEmptyModel) ∧
      testChain.Respond "a b" 2 3 [0, 1, 2] [] (fun _ => ⟨0, 0⟩) 4
        ≠ .done ("", some errEmptyModel) :=
  ⟨(respond_empty_model NewChain "a b" 2 3 [0, 1, 2] [] (fun _ => ⟨0, 0⟩) 4).1 rfl,
    (respond_empty_model testChain "a b" 2 3 [0, 1, 2] [] (fun _ => ⟨0, 0⟩) 4).2.1
      (by decide) ""⟩

/-! ## Custom chains -/

theorem inputSeedLoop_congr (c c' : Chain) (h : c'.chains = c.chains) (tokens : List Token)
    (minLen maxLen : Int) (fuel : Nat) :
    ∀ (indexOrder : List Nat) (rs : Rand),
      inputSeedLoop c' tokens minLen maxLen fuel indexOrder rs
        = inputSeedLoop c tokens minLen maxLen fuel indexOrder rs := by
  intro indexOrder
  induction indexOrder with
  | nil => intro rs; rfl
  | cons i rest ih =>
    intro rs
    simp only [inputSeedLoop, Chain.respond, h, ih]

theorem tableSeedLoop_congr (c c' : Chain) (h : c'.chains = c.chains)
    (minLen maxLen : Int) (fuel : Nat) :
    ∀ (rangeOrder : List Context) (rs : Rand),
      tableSeedLoop c' minLen maxLen fuel rangeOrder rs
        = tableSeedLoop c minLen maxLen fuel rangeOrder rs := by
  intro rangeOrder
  induction rangeOrder with
  | nil => intro rs; rfl
  | cons ngram rest ih =>
    intro rs
    simp only [tableSeedLoop, Chain.respond, h, ih]

theorem Respond_congr (c c' : Chain) (h : c'.chains = c.chains) (input input' : String)
    (ht : c'.tokens input' = c.tokens input) (minLen maxLen : Int)
    (indexOrder : List Nat) (rangeOrder : List Context) (rs : Rand) (fuel : Nat) :
    c'.Respond input' minLen maxLen indexOrder rangeOrder rs fuel
      = c.Respond input minLen maxLen indexOrder rangeOrder rs fuel := by
  have h1 : inputSeedLoop c' = inputSeedLoop c := by
    funext tokens a b fuel io rs0
    exact inputSeedLoop_congr c c' h tokens a b fuel io rs0
  have h2 : tableSeedLoop c' = tableSeedLoop c := by
    funext a b fuel ro rs0
    exact tableSeedLoop_congr c c' h a b fuel ro rs0
  simp only [Chain.Respond, Chain.responseToks, h, ht, h1, h2]

/-- C10, as the code has it.  A chain built by `NewCustomChain` always normalizes
(`useNormalize` is set whatever is passed): with a normalizer `f`, training on `lines`
gives the table that a chain that does not normalize gives on the lines `f l`, and
`Respond(input, ...)` is `Respond(f input, ...)` of that chain.  With a nil normalizer
`Update` panics on every line. -/
theorem customChain_always_normalizes (tok : String → List Token) (f : String → String)
    (lines : List String) :
    ∃ c, trainAll (NewCustomChain (some tok) (some f)) lines = .done c ∧
      trainAll { NewCustomChain (some tok) (some f) with useNormalize := false }
          (lines.map f)
        = .done { c with useNormalize := false } ∧
      (∀ input minLen maxLen indexOrder rangeOrder rs fuel,
        c.Respond input minLen maxLen indexOrder rangeOrder rs fuel
          = Chain.Respond { c with useNormalize := false } (f input) minLen maxLen
              indexOrder rangeOrder rs fuel) ∧
      (∀ line, (NewCustomChain (some tok) none).Update line = .panic) := by
  have e1 := trainAll_eq (fun l => tok (f l)) lines (NewCustomChain (some tok) (some f))
    (fun _ => rfl)
  have e2 := trainAll_eq tok (lines.map f)
    { NewCustomChain (some tok) (some f) with useNormalize := false } (fun _ => rfl)
  generalize hc0 : ({ NewCustomChain (some tok) (some f) with
    chains := lines.foldl (fun ch l => updateTokens ch (tok (f l)))
      (NewCustomChain (some tok) (some f)).chains } : Chain) = c0 at e1
  refine ⟨c0, e1, ?_, ?_, fun line => rfl⟩
  · rw [e2, List.foldl_map, ← hc0]
  · intro input minLen maxLen indexOrder rangeOrder rs fuel
    refine (Respond_congr c0 { c0 with useNormalize := false } rfl input (f input) ?_ minLen
      maxLen indexOrder rangeOrder rs fuel).symm
    rw [← hc0]
    rfl

/-- C10 fails for a custom chain with the whitespace tokenizer and a nil normalizer:
`Update("a b c")` panics, whereas the default chain, which applies the tokenizer to the
raw line, returns. -/
theorem customChain_nil_normalizer_panics :
    (NewCustomChain (some WhitespaceTokenize) none).Update "a b c" = .panic ∧
      ∃ c, NewChain.Update "a b c" = .done c :=
  ⟨rfl, _, rfl⟩

/-! ## Chains trained with the default tokenizer: the walk terminates -/

theorem WhitespaceTokenize_positions (s : String) (i : Nat) (t : Token)
    (h : (WhitespaceTokenize s)[i]? = some t) :
    (t.isStart = true ↔ i = 0) ∧ (t.isEnd = true ↔ i + 1 = (WhitespaceTokenize s).length) := by
  rw [WhitespaceTokenize_eq] at h ⊢
  refine special_positions _ ?_ i t h
  intro u hu
  obtain ⟨r, -, rfl⟩ := List.mem_map.1 hu
  simp [NewToken]

theorem isWindow_WhitespaceTokenize (s : String) (ctx : Context)
    (h : IsWindow (WhitespaceTokenize s) ctx) : ctx.2.isStart = false ∧ ctx.2.isEnd = false := by
  obtain ⟨i, hi, -, h2⟩ := h
  obtain ⟨p1, p2⟩ := WhitespaceTokenize_positions s (i + 1) ctx.2 h2
  simp only [NGrams] at hi
  constructor
  · cases hs : ctx.2.isStart with
    | false => rfl
    | true => have := p1.1 hs; omega
  · cases hs : ctx.2.isEnd with
    | false => rfl
    | true => have := p2.1 hs; omega

theorem trained_invariants (lines : List String) (c : Chain)
    (hc : trainAll NewChain lines = .done c) :
    TableWellFormed c.chains ∧ KeysLiteral c.chains := by
  rw [trainAll_eq WhitespaceTokenize lines NewChain NewChain_tokens] at hc
  cases hc
  refine ⟨tableWellFormed_foldl _ lines _ (by simp [TableWellFormed, NewChain]), ?_⟩
  intro ctx hctx
  rcases (mem_mapKeys_foldl WhitespaceTokenize lines NewChain.chains ctx).1 hctx with h | h
  · simp [NewChain, mapKeys] at h
  · obtain ⟨l, -, hw⟩ := h
    exact isWindow_WhitespaceTokenize l ctx hw

theorem respondLoop_literal_done (chains : List (Context × Suffixes))
    (hwf : TableWellFormed chains) (hkeys : KeysLiteral chains) (maxLen : Int) :
    ∀ (fuel : Nat) (ngram : Context) (i : Int) (toks : List Token) (rs : Rand),
      ValidDraws rs → ngram.1.isStart = false → ngram.1.isEnd = false →
      (maxLen - i).toNat ≤ fuel →
      ∃ res, respondLoop chains maxLen fuel ngram i toks rs = .done res ∧ ValidDraws res.2 := by
  intro fuel
  induction fuel with
  | zero =>
    intro ngram i toks rs hrs _ _ hf
    exact ⟨_, respondLoop_exit _ _ _ _ _ _ _ (by omega), hrs⟩
  | succ fuel ih =>
    intro ngram i toks rs hrs h1 h2 hf
    by_cases hlt : i < maxLen
    · cases hg : mapGet chains ngram with
      | none => exact ⟨_, respondLoop_break _ _ _ _ _ _ _ hlt hg, hrs⟩
      | some t =>
        obtain ⟨u, -, e⟩ := respondLoop_step chains hwf maxLen fuel ngram i toks rs hrs hlt t hg
        have hk := hkeys ngram ((mapGet_isSome_iff chains ngram).1 (by simp [hg]))
        rw [e]
        simp only [h1, h2, Bool.or_self, Bool.false_eq_true, if_false]
        exact ih _ _ _ _ (validDraws_next rs hrs) hk.1 hk.2 (by omega)
    · exact ⟨_, respondLoop_exit _ _ _ _ _ _ _ hlt, hrs⟩

theorem respondLoop_done (chains : List (Context × Suffixes))
    (hwf : TableWellFormed chains) (hkeys : KeysLiteral chains) (maxLen : Int)
    (fuel : Nat) (ngram : Context) (i : Int) (toks : List Token) (rs : Rand)
    (hrs : ValidDraws rs) (hf : (maxLen - i).toNat + 1 ≤ fuel) :
    ∃ res, respondLoop chains maxLen fuel ngram i toks rs = .done res ∧ ValidDraws res.2 := by
  obtain ⟨f, rfl⟩ : ∃ f, fuel = f + 1 := ⟨fuel - 1, by omega⟩
  by_cases hlt : i < maxLen
  · cases hg : mapGet chains ngram with
    | none => exact ⟨_, respondLoop_break _ _ _ _ _ _ _ hlt hg, hrs⟩
    | some t =>
      obtain ⟨u, -, e⟩ := respondLoop_step chains hwf maxLen f ngram i toks rs hrs hlt t hg
      have hk := hkeys ngram ((mapGet_isSome_iff chains ngram).1 (by simp [hg]))
      rw [e]
      refine respondLoop_literal_done chains hwf hkeys maxLen f _ _ _ _
        (validDraws_next rs hrs) hk.1 hk.2 ?_
      split_ifs <;> omega
  · exact ⟨_, respondLoop_exit _ _ _ _ _ _ _ hlt, hrs⟩

theorem respond_done (c : Chain) (hwf : TableWellFormed c.chains) (hkeys : KeysLiteral c.chains)
    (seed : Context) (maxLen : Int) (h0 : 0 ≤ maxLen) (hcap : maxLen ≤ makeCapLimit)
    (rs : Rand) (hrs : ValidDraws rs) (fuel : Nat) (hf : maxLen.toNat + 1 ≤ fuel) :
    ∃ res, c.respond seed maxLen rs fuel = .done res ∧ ValidDraws res.2 := by
  obtain ⟨res, e, hv⟩ := respondLoop_done c.chains hwf hkeys maxLen fuel seed 0 [] rs hrs
    (by simpa using hf)
  refine ⟨(withoutSpecials res.1, res.2), ?_, hv⟩
  unfold Chain.respond
  rw [if_neg (by omega), e]
  rfl

theorem fillNGram_done (tokens : List Token) (i : Nat) (h : i + 1 < tokens.length) :
    ∃ ngram, fillNGram tokens i = .done ngram := by
  unfold fillNGram
  rw [List.getElem?_eq_getElem (by omega : i < tokens.length), List.getElem?_eq_getElem h]
  exact ⟨_, rfl⟩

theorem inputSeedLoop_none (c : Chain) (hwf : TableWellFormed c.chains)
    (hkeys : KeysLiteral c.chains) (tokens : List Token) (minLen maxLen : Int)
    (h0 : 0 ≤ maxLen) (hcap : maxLen ≤ makeCapLimit) (hle : maxLen ≤ minLen) (fuel : Nat)
    (hf : maxLen.toNat + 1 ≤ fuel) :
    ∀ (indexOrder : List Nat) (rs : Rand), (∀ i ∈ indexOrder, i + 1 < tokens.length) →
      ValidDraws rs →
      ∃ rs2, inputSeedLoop c tokens minLen maxLen fuel indexOrder rs = .done (none, rs2) ∧
        ValidDraws rs2 := by
  intro indexOrder
  induction indexOrder with
  | nil => intro rs _ hrs; exact ⟨rs, rfl, hrs⟩
  | cons i rest ih =>
    intro rs hio hrs
    obtain ⟨ngram, hfill⟩ := fillNGram_done tokens i (hio i (by simp))
    have hrest : ∀ j ∈ rest, j + 1 < tokens.length :=
      fun j hj => hio j (List.mem_cons_of_mem _ hj)
    unfold inputSeedLoop
    simp only [hfill, Outcome.bind]
    cases hg : mapGet c.chains ngram with
    | none => exact ih rs hrest hrs
    | some t =>
      obtain ⟨res, e, hv⟩ := respond_done c hwf hkeys ngram maxLen h0 hcap rs hrs fuel hf
      have hb := (respond_bound c ngram maxLen rs fuel res e).2.1
      simp only [e]
      rw [if_neg (by omega)]
      exact ih res.2 hrest hv

theorem tableSeedLoop_none (c : Chain) (hwf : TableWellFormed c.chains)
    (hkeys : KeysLiteral c.chains) (minLen maxLen : Int)
    (h0 : 0 ≤ maxLen) (hcap : maxLen ≤ makeCapLimit) (hle : maxLen ≤ minLen) (fuel : Nat)
    (hf : maxLen.toNat + 1 ≤ fuel) :
    ∀ (rangeOrder : List Context) (rs : Rand), ValidDraws rs →
      ∃ rs2, tableSeedLoop c minLen maxLen fuel rangeOrder rs = .done (none, rs2) ∧
        ValidDraws rs2 := by
  intro rangeOrder
  induction rangeOrder with
  | nil => intro rs hrs; exact ⟨rs, rfl, hrs⟩
  | cons ngram rest ih =>
    intro rs hrs
    obtain ⟨res, e, hv⟩ := respond_done c hwf hkeys ngram maxLen h0 hcap rs hrs fuel hf
    have hb := (respond_bound c ngram maxLen rs fuel res e).2.1
    unfold tableSeedLoop
    simp only [e, Outcome.bind]
    rw [if_neg (by omega)]
    exact ih res.2 hv

theorem Respond_constraint_of_invariants (c : Chain) (hwf : TableWellFormed c.chains)
    (hkeys : KeysLiteral c.chains) (hne : c.chains ≠ []) (input : String) (tokens : List Token)
    (ht : c.tokens input = .done tokens) (minLen maxLen : Int)
    (h0 : 0 ≤ maxLen) (hcap : maxLen ≤ makeCapLimit) (hle : maxLen ≤ minLen)
    (indexOrder : List Nat)
    (hio : ∀ i ∈ indexOrder, i + 1 < tokens.length)
    (rangeOrder : List Context) (rs : Rand) (hrs : ValidDraws rs)
    (fuel : Nat) (hf : maxLen.toNat + 1 ≤ fuel) :
    c.Respond input minLen maxLen indexOrder rangeOrder rs fuel
      = .done ("", some errConstraint) := by
  have hfirst : ∃ rs2,
      (if tokens.length > NGrams then
          inputSeedLoop c tokens minLen maxLen fuel indexOrder rs
        else .done (none, rs)) = .done (none, rs2) ∧ ValidDraws rs2 := by
    split_ifs
    · exact inputSeedLoop_none c hwf hkeys tokens minLen maxLen h0 hcap hle fuel hf indexOrder rs
        hio hrs
    · exact ⟨rs, rfl, hrs⟩
  obtain ⟨rs2, e1, hv⟩ := hfirst
  obtain ⟨rs3, e2, -⟩ := tableSeedLoop_none c hwf hkeys minLen maxLen h0 hcap hle fuel hf
    rangeOrder rs2 hv
  unfold Chain.Respond Chain.responseToks
  rw [if_neg (by simpa using hne), ht]
  simp only [Outcome.bind, e1, e2]

theorem Respond_never_accepts (c : Chain) (input : String) (minLen maxLen : Int)
    (hle : maxLen ≤ minLen) (indexOrder : List Nat) (rangeOrder : List Context) (rs : Rand)
    (fuel : Nat) (r : String × Option String)
    (h : c.Respond input minLen maxLen indexOrder rangeOrder rs fuel = .done r) :
    r = ("", some errEmptyModel) ∨ r = ("", some errConstraint) := by
  unfold Chain.Respond at h
  by_cases he : c.chains.length = 0
  · rw [if_pos he] at h
    cases h
    exact Or.inl rfl
  · rw [if_neg he] at h
    cases hr : c.responseToks input minLen maxLen indexOrder rangeOrder rs fuel with
    | done o =>
      cases o with
      | none =>
        simp only [hr, Outcome.bind] at h
        cases h
        exact Or.inr rfl
      | some toks =>
        have := responseToks_accepts c input minLen maxLen indexOrder rangeOrder rs fuel toks hr
        omega
    | panic => simp [hr, Outcome.bind] at h
    | timeout => simp [hr, Outcome.bind] at h

/-- C5, as the code has it.  When `minLen ≥ maxLen`, `Respond` never returns a response:
whatever it returns is the empty string with the empty-model error or with the error
`"could not generate response within constraints"`.  On a chain built from the empty
default chain by `Update`s whose table has a context, with `0 ≤ maxLen ≤ makeCapLimit`
(the capacities that `make([]Token, 0, maxLen)` accepts), a permutation `indexOrder` of
the windows of the input, draws in `[0, 1)` and fuel for `maxLen + 1` loop iterations per
walk, `Respond` does return, with the second error. -/
theorem respond_constraint_unsatisfiable (c : Chain) (input : String) (minLen maxLen : Int)
    (hle : maxLen ≤ minLen) (indexOrder : List Nat) (rangeOrder : List Context) (rs : Rand)
    (fuel : Nat) :
    (∀ r, c.Respond input minLen maxLen indexOrder rangeOrder rs fuel = .done r →
      r = ("", some errEmptyModel) ∨ r = ("", some errConstraint)) ∧
    (∀ lines, trainAll NewChain lines = .done c → c.chains ≠ [] → 0 ≤ maxLen →
      maxLen ≤ makeCapLimit →
      indexOrder.Perm (List.range ((WhitespaceTokenize input).length - NGrams + 1)) →
      ValidDraws rs → maxLen.toNat + 1 ≤ fuel →
      c.Respond input minLen maxLen indexOrder rangeOrder rs fuel
        = .done ("", some errConstraint)) ∧
    errConstraint = "could not generate response within constraints" := by
  refine ⟨fun r h => Respond_never_accepts c input minLen maxLen hle indexOrder rangeOrder rs
    fuel r h, ?_, rfl⟩
  intro lines hc hne h0 hcap hperm hrs hf
  obtain ⟨hwf, hkeys⟩ := trained_invariants lines c hc
  have ht : c.tokens input = .done (WhitespaceTokenize input) := by
    rw [trainAll_eq WhitespaceTokenize lines NewChain NewChain_tokens] at hc
    cases hc
    rfl
  have hlen := length_WhitespaceTokenize input
  refine Respond_constraint_of_invariants c hwf hkeys hne input _ ht minLen maxLen h0 hcap hle
    indexOrder ?_ rangeOrder rs hrs fuel hf
  intro i hi
  have := List.mem_range.1 (hperm.subset hi)
  simp only [NGrams] at this
  omega

/-- C5 as amended, at the chain of the tests with `minLen = maxLen = 3`: no response, the
constraint error. -/
theorem respond_constraint_unsatisfiable_witness :
    testChain.Respond "a b" 3 3 [2, 0, 1] (mapKeys testChain.chains) (fun _ => ⟨0, 0⟩) 4
      = .done ("", some errConstraint) :=
  (respond_constraint_unsatisfiable testChain "a b" 3 3 (le_refl _) [2, 0, 1]
    (mapKeys testChain.chains) (fun _ => ⟨0, 0⟩) 4).2.1 _ trainAll_testChain (by decide)
    (by decide) (by decide) (by decide) validDraws_zero (by decide)

/-- C5 fails on the empty default chain, where `Respond("", 1, 1)` returns the
empty-model error; on the chain of the tests with `minLen = maxLen = -1`, where `Respond`
panics in `make([]Token, 0, maxLen)`; and on the chain of the tests with
`minLen = maxLen = 9223372036854775807`, the largest `int`, where `Respond` panics in
`make([]Token, 0, maxLen)` as well, the capacity being out of range. -/
theorem respond_constraint_fails :
    NewChain.Respond "" 1 1 [] [] (fun _ => ⟨0, 0⟩) 1 = .done ("", some errEmptyModel) ∧
      errEmptyModel ≠ errConstraint ∧
      testChain.Respond "" (-1) (-1) [] (mapKeys testChain.chains) (fun _ => ⟨0, 0⟩) 1
        = .panic ∧
      testChain.Respond "" 9223372036854775807 9223372036854775807 []
        (mapKeys testChain.chains) (fun _ => ⟨0, 0⟩) 1 = .panic :=
  ⟨rfl, by decide, rfl, rfl⟩

/-! ## `weightedChoice`: the selected index -/

theorem weightedChoice_eq_choiceIndex (suffixes : List Token) (occurrences : List ℚ) (r : ℚ) :
    weightedChoice suffixes occurrences r
      = (choiceIndex occurrences r).bind fun choice =>
          match suffixes[choice]? with
          | none => .panic
          | some t => .done t := by
  unfold weightedChoice choiceIndex boundaries
  simp only []
  cases (List.range NumSamples).foldl
      (boundariesStep occurrences (occurrences.foldl (fun sum e => sum + e) 0))
      (.done (List.replicate NumSamples (.num 0), 0)) <;> rfl

theorem getRandom_eq_samples (s : Suffixes) (d : Draw) :
    s.getRandom d
      = if s.suffixes.length = 0 then .panic
        else (s.samples (d.intn % s.suffixes.length)).bind fun st =>
          weightedChoice st.1 st.2 d.float32 := rfl

theorem boundaries_of_three (w0 w1 w2 : ℚ) (h : w0 + w1 + w2 ≠ 0) :
    boundaries [w0, w1, w2]
      = .done [.num (w0 / (w0 + w1 + w2)), .num ((w0 + w1) / (w0 + w1 + w2)),
          .num ((w0 + w1 + w2) / (w0 + w1 + w2))] := by
  unfold boundaries
  rw [show List.foldl (fun sum e => sum + e) 0 [w0, w1, w2] = w0 + w1 + w2 by simp]
  simp only []
  rw [boundaries_three]
  simp [Outcome.bind, fdiv, h]

theorem choiceIndex_three (w0 w1 w2 r : ℚ) (h : w0 + w1 + w2 ≠ 0) :
    choiceIndex [w0, w1, w2] r
      = if w0 / (w0 + w1 + w2) ≤ r then
          if (w0 + w1) / (w0 + w1 + w2) ≤ r then
            if (w0 + w1 + w2) / (w0 + w1 + w2) ≤ r then .panic else .done 2
          else .done 1
        else .done 0 := by
  unfold choiceIndex
  rw [boundaries_of_three w0 w1 w2 h]
  simp only [Outcome.bind, List.length_cons, List.length_nil]
  simp only [scan, Quotient32.le, NumSamples, List.getElem?_cons_zero, List.getElem?_cons_succ,
    Bool.and_eq_true, decide_eq_true_eq]
  split_ifs <;> simp_all
  linarith

theorem cumulativeRatio_three (w0 w1 w2 : ℚ) :
    cumulativeRatio [w0, w1, w2] 0 = w0 / (w0 + w1 + w2) ∧
      cumulativeRatio [w0, w1, w2] 1 = (w0 + w1) / (w0 + w1 + w2) ∧
      cumulativeRatio [w0, w1, w2] 2 = (w0 + w1 + w2) / (w0 + w1 + w2) := by
  simp [cumulativeRatio, add_assoc]


/-- C11. Three items with weights of positive total and `r < 1`, in exact arithmetic:
`weightedChoice` returns the item at the least index `i` whose boundary
`(w0 + ... + wi) / (w0 + w1 + w2)` exceeds `r` (this needs neither `0 ≤ r` nor
non-negative weights).  With the weights `(2, 5, 1)` of `TestWeightedChoice` it returns
the first item for `r = 0`, the second for `r = 0.25` and the third for `r = 0.99`. -/
theorem weightedChoice_least_index (t0 t1 t2 : Token) (w0 w1 w2 r : ℚ)
    (hpos : 0 < w0 + w1 + w2) (hr : r < 1) :
    (∃ i t, [t0, t1, t2][i]? = some t ∧
      weightedChoice [t0, t1, t2] [w0, w1, w2] r = .done t ∧
      r < cumulativeRatio [w0, w1, w2] i ∧
      ∀ j, j < i → cumulativeRatio [w0, w1, w2] j ≤ r) ∧
    weightedChoice [NewToken "a", NewToken "b", NewToken "c"] [2, 5, 1] 0
      = .done (NewToken "a") ∧
    weightedChoice [NewToken "a", NewToken "b", NewToken "c"] [2, 5, 1] (25 / 100)
      = .done (NewToken "b") ∧
    weightedChoice [NewToken "a", NewToken "b", NewToken "c"] [2, 5, 1] (99 / 100)
      = .done (NewToken "c") := by
  have hne : w0 + w1 + w2 ≠ 0 := ne_of_gt hpos
  obtain ⟨c0, c1, c2⟩ := cumulativeRatio_three w0 w1 w2
  have hlast : ¬ (w0 + w1 + w2) / (w0 + w1 + w2) ≤ r := by
    rw [div_self hne]
    linarith
  refine ⟨?_, ?_, ?_, ?_⟩
  · rw [weightedChoice_three t0 t1 t2 w0 w1 w2 r hne, if_neg hlast]
    by_cases h0 : w0 / (w0 + w1 + w2) ≤ r
    · by_cases h1 : (w0 + w1) / (w0 + w1 + w2) ≤ r
      · refine ⟨2, t2, rfl, by rw [if_pos h0, if_pos h1], by rw [c2]; exact not_le.1 hlast, ?_⟩
        intro j hj
        interval_cases j
        · rw [c0]; exact h0
        · rw [c1]; exact h1
      · refine ⟨1, t1, rfl, by rw [if_pos h0, if_neg h1], by rw [c1]; exact not_le.1 h1, ?_⟩
        intro j hj
        interval_cases j
        rw [c0]; exact h0
    · exact ⟨0, t0, rfl, by rw [if_neg h0], by rw [c0]; exact not_le.1 h0,
        fun j hj => absurd hj (Nat.not_lt_zero j)⟩
  · rw [weightedChoice_three _ _ _ _ _ _ _ (by norm_num)]
    norm_num
  · rw [weightedChoice_three _ _ _ _ _ _ _ (by norm_num)]
    norm_num
  · rw [weightedChoice_three _ _ _ _ _ _ _ (by norm_num)]
    norm_num

/-- C11 at the weights `(1, 1, 2)` and `r = 1/2`: the third item, whose boundary `1` is
the first above `r`. -/
theorem weightedChoice_least_index_witness :
    ∃ i t, [NewToken "a", NewToken "b", NewToken "c"][i]? = some t ∧
      weightedChoice [NewToken "a", NewToken "b", NewToken "c"] [1, 1, 2] (1 / 2) = .done t ∧
      (1 / 2 : ℚ) < cumulativeRatio [1, 1, 2] i ∧
      ∀ j, j < i → cumulativeRatio [1, 1, 2] j ≤ 1 / 2 :=
  (weightedChoice_least_index (NewToken "a") (NewToken "b") (NewToken "c") 1 1 2 (1 / 2)
    (by norm_num) (by norm_num)).1

/-- C12. For weights of positive total and `r1 ≤ r2 < 1`, the index that `weightedChoice`
selects for `r1` is at most the index it selects for `r2`, and the boundaries it
compares against are exactly the cumulative ratios `(w0 + ... + wi) / (w0 + w1 + w2)`
(in exact arithmetic). -/
theorem weightedChoice_monotone (w0 w1 w2 r1 r2 : ℚ) (hpos : 0 < w0 + w1 + w2)
    (h12 : r1 ≤ r2) (h2 : r2 < 1) :
    (∃ i1 i2, choiceIndex [w0, w1, w2] r1 = .done i1 ∧
      choiceIndex [w0, w1, w2] r2 = .done i2 ∧ i1 ≤ i2) ∧
    boundaries [w0, w1, w2]
      = .done [.num (cumulativeRatio [w0, w1, w2] 0), .num (cumulativeRatio [w0, w1, w2] 1),
          .num (cumulativeRatio [w0, w1, w2] 2)] ∧
    (∀ (t0 t1 t2 : Token) (r : ℚ), weightedChoice [t0, t1, t2] [w0, w1, w2] r
      = (choiceIndex [w0, w1, w2] r).bind fun choice =>
          match [t0, t1, t2][choice]? with
          | none => .panic
          | some t => .done t) := by
  have hne : w0 + w1 + w2 ≠ 0 := ne_of_gt hpos
  obtain ⟨c0, c1, c2⟩ := cumulativeRatio_three w0 w1 w2
  have hlast : ∀ r, r < 1 → ¬ (w0 + w1 + w2) / (w0 + w1 + w2) ≤ r := by
    intro r hr
    rw [div_self hne]
    linarith
  refine ⟨?_, ?_, fun t0 t1 t2 r => weightedChoice_eq_choiceIndex _ _ r⟩
  · rw [choiceIndex_three w0 w1 w2 r1 hne, choiceIndex_three w0 w1 w2 r2 hne,
      if_neg (hlast r1 (lt_of_le_of_lt h12 h2)), if_neg (hlast r2 h2)]
    by_cases a0 : w0 / (w0 + w1 + w2) ≤ r1
    · have b0 : w0 / (w0 + w1 + w2) ≤ r2 := le_trans a0 h12
      rw [if_pos a0, if_pos b0]
      by_cases a1 : (w0 + w1) / (w0 + w1 + w2) ≤ r1
      · have b1 : (w0 + w1) / (w0 + w1 + w2) ≤ r2 := le_trans a1 h12
        rw [if_pos a1, if_pos b1]
        exact ⟨2, 2, rfl, rfl, le_refl _⟩
      · rw [if_neg a1]
        by_cases b1 : (w0 + w1) / (w0 + w1 + w2) ≤ r2
        · rw [if_pos b1]
          exact ⟨1, 2, rfl, rfl, by omega⟩
        · rw [if_neg b1]
          exact ⟨1, 1, rfl, rfl, le_refl _⟩
    · rw [if_neg a0]
      split_ifs
      · exact ⟨0, 2, rfl, rfl, by omega⟩
      · exact ⟨0, 1, rfl, rfl, by omega⟩
      · exact ⟨0, 0, rfl, rfl, le_refl _⟩
  · rw [boundaries_of_three w0 w1 w2 hne, c0, c1, c2]

/-- C12 at the weights `(2, 5, 1)` with `r1 = 0.1` and `r2 = 0.5`. -/
theorem weightedChoice_monotone_witness :
    ∃ i1 i2, choiceIndex [2, 5, 1] (1 / 10) = .done i1 ∧
      choiceIndex [2, 5, 1] (1 / 2) = .done i2 ∧ i1 ≤ i2 :=
  (weightedChoice_monotone 2 5 1 (1 / 10) (1 / 2) (by norm_num) (by norm_num)
    (by norm_num)).1

/-- C13 fails at `weightedChoice([a, b, c], [2, 5, 1], 1.0)`: no boundary exceeds `r = 1`,
the scan reaches `choice = 3` and evaluates `boundaries[3]` before it tests
`choice < NumSamples`, which is an index out of range; the last item is not returned. -/
theorem weightedChoice_scan_out_of_range :
    weightedChoice [NewToken "a", NewToken "b", NewToken "c"] [2, 5, 1] 1 = .panic ∧
      choiceIndex [2, 5, 1] 1 = .panic := by
  constructor
  · rw [weightedChoice_three _ _ _ _ _ _ _ (by norm_num)]
    norm_num
  · rw [choiceIndex_three _ _ _ _ (by norm_num)]
    norm_num

/-! ## `getRandom`: the sampled window -/

theorem samples_eq (s : Suffixes) (k : Nat) (x0 x1 : Token)
    (h0 : s.suffixes[(k + 0) % s.suffixes.length]? = some x0)
    (h1 : s.suffixes[(k + 1) % s.suffixes.length]? = some x1) :
    s.samples k = .done ([x0, x1, default], [(s.count x0 : ℚ), (s.count x1 : ℚ), 0]) :=
  getRandomSamples s k x0 x1 h0 h1

/-- C14 fails at the table with successors `[a, b, c]`, each recorded once, start index
`0` and `r = 0.99`: the loop of `getRandom` runs to `NGrams = 2`, not `NumSamples = 3`, so
it collects `a` and `b` only and returns `b`, whereas the weighted choice among the three
entries is `c`. -/
theorem getRandom_collects_two :
    threeSuccessors.samples 0
        = .done ([NewToken "a", NewToken "b", default], [1, 1, 0]) ∧
      threeSuccessors.getRandom ⟨0, 99 / 100⟩ = .done (NewToken "b") ∧
      weightedChoice [NewToken "a", NewToken "b", NewToken "c"] [1, 1, 1] (99 / 100)
        = .done (NewToken "c") := by
  have hs : threeSuccessors.samples 0
      = .done ([NewToken "a", NewToken "b", default], [1, 1, 0]) := by
    rw [samples_eq threeSuccessors 0 (NewToken "a") (NewToken "b") rfl rfl]
    have ha : threeSuccessors.count (NewToken "a") = 1 := by decide
    have hb : threeSuccessors.count (NewToken "b") = 1 := by decide
    rw [ha, hb]
    simp
  refine ⟨hs, ?_, ?_⟩
  · rw [getRandom_eq_samples]
    have hlen : threeSuccessors.suffixes.length = 3 := rfl
    rw [hlen, if_neg (by decide), show (0 : Nat) % 3 = 0 from rfl, hs]
    simp only [Outcome.bind]
    rw [weightedChoice_three _ _ _ _ _ _ _ (by norm_num)]
    norm_num
  · rw [weightedChoice_three _ _ _ _ _ _ _ (by norm_num)]
    norm_num

/-! ## Chains built by `Update`, with any hooks -/

theorem tableWellFormed_trainAll (lines : List String) :
    ∀ (c0 c : Chain), TableWellFormed c0.chains → trainAll c0 lines = .done c →
      TableWellFormed c.chains := by
  induction lines with
  | nil =>
    intro c0 c h hc
    cases hc
    exact h
  | cons l ls ih =>
    intro c0 c h hc
    unfold trainAll at hc
    cases hu : c0.Update l with
    | done c1 =>
      rw [hu] at hc
      obtain ⟨toks, -, rfl⟩ := Update_done c0 c1 l hu
      exact ih _ c (tableWellFormed_updateTokens c0.chains toks h) hc
    | panic => simp [hu, Outcome.bind] at hc
    | timeout => simp [hu, Outcome.bind] at hc

theorem tableWellFormed_nil : TableWellFormed [] := by
  intro p hp
  cases hp

/-- C15. A suffix table stored in a chain built from an empty chain by `Update`s, a start
index `k < numSuf` and `r < 1`: the loop of `getRandom` reads no index out of range, the
total weight of the collected entries is not zero, and `getRandom` returns one of the
two entries it collected, at index `(k + i) mod numSuf` of the ordered successor
sequence with `i < NGrams`: a recorded successor with count at least 1. -/
theorem getRandom_returns_collected (c0 c : Chain) (lines : List String)
    (h0 : c0.chains = []) (hc : trainAll c0 lines = .done c)
    (p : Context × Suffixes) (hp : p ∈ c.chains) (k : Nat) (r : ℚ)
    (hk : k < p.2.suffixes.length) (hr : r < 1) :
    ∃ sufs occs u, p.2.samples k = .done (sufs, occs) ∧
      occs.foldl (fun sum e => sum + e) 0 ≠ 0 ∧
      p.2.getRandom ⟨k, r⟩ = .done u ∧
      (∃ i, i < NGrams ∧ sufs[i]? = some u ∧
        p.2.suffixes[(k + i) % p.2.suffixes.length]? = some u) ∧
      u ∈ p.2.suffixes ∧ 1 ≤ p.2.count u := by
  have hwf : p.2.WellFormed :=
    tableWellFormed_trainAll lines c0 c (by rw [h0]; exact tableWellFormed_nil) hc p hp
  have hlen : 0 < p.2.suffixes.length := by omega
  have hb : ∀ j, (k + j) % p.2.suffixes.length < p.2.suffixes.length :=
    fun j => Nat.mod_lt _ hlen
  obtain ⟨x0, e0⟩ : ∃ x0, p.2.suffixes[(k + 0) % p.2.suffixes.length]? = some x0 :=
    ⟨_, List.getElem?_eq_getElem (hb 0)⟩
  obtain ⟨x1, e1⟩ : ∃ x1, p.2.suffixes[(k + 1) % p.2.suffixes.length]? = some x1 :=
    ⟨_, List.getElem?_eq_getElem (hb 1)⟩
  have m0 : x0 ∈ p.2.suffixes := List.getElem?_mem e0
  have m1 : x1 ∈ p.2.suffixes := List.getElem?_mem e1
  have hs := samples_eq p.2 k x0 x1 e0 e1
  have c0' : (1 : ℚ) ≤ p.2.count x0 := by exact_mod_cast hwf.2.2.2.2 x0 m0
  have c1' : (1 : ℚ) ≤ p.2.count x1 := by exact_mod_cast hwf.2.2.2.2 x1 m1
  have hsum : (p.2.count x0 : ℚ) + p.2.count x1 + 0 ≠ 0 := by
    have : (0 : ℚ) < (p.2.count x0 : ℚ) + p.2.count x1 + 0 := by linarith
    exact ne_of_gt this
  have hone : ¬ ((p.2.count x0 : ℚ) + p.2.count x1) / ((p.2.count x0 : ℚ) + p.2.count x1 + 0)
      ≤ r := by
    rw [add_zero, div_self (by simpa using hsum)]
    linarith
  have hg : p.2.getRandom ⟨k, r⟩
      = if (p.2.count x0 : ℚ) / ((p.2.count x0 : ℚ) + p.2.count x1 + 0) ≤ r then .done x1
        else .done x0 := by
    rw [getRandom_eq_samples, if_neg (by omega)]
    simp only [Nat.mod_eq_of_lt hk, hs, Outcome.bind]
    rw [weightedChoice_three _ _ _ _ _ _ _ hsum, if_neg hone]
  have hsum' : List.foldl (fun sum e => sum + e) 0
      [(p.2.count x0 : ℚ), (p.2.count x1 : ℚ), 0] ≠ 0 := by
    simpa using hsum
  by_cases hb0 : (p.2.count x0 : ℚ) / ((p.2.count x0 : ℚ) + p.2.count x1 + 0) ≤ r
  · exact ⟨_, _, x1, hs, hsum', by rw [hg, if_pos hb0], ⟨1, by decide, rfl, e1⟩, m1,
      hwf.2.2.2.2 x1 m1⟩
  · exact ⟨_, _, x0, hs, hsum', by rw [hg, if_neg hb0], ⟨0, by decide, rfl, e0⟩, m0,
      hwf.2.2.2.2 x0 m0⟩

/-- C15 at the table of the context `(b, c)` of the chain of the tests, start index `1`
and `r = 0.75`. -/
theorem getRandom_returns_collected_witness :
    ∃ sufs occs u,
      Suffixes.samples ⟨[(endToken, 1), (NewToken "d", 1)], [endToken, NewToken "d"]⟩ 1
        = .done (sufs, occs) ∧
      occs.foldl (fun sum e => sum + e) 0 ≠ 0 ∧
      Suffixes.getRandom ⟨[(endToken, 1), (NewToken "d", 1)], [endToken, NewToken "d"]⟩
        ⟨1, 3 / 4⟩ = .done u ∧
      (∃ i, i < NGrams ∧ sufs[i]? = some u ∧
        [endToken, NewToken "d"][(1 + i) % 2]? = some u) ∧
      u ∈ [endToken, NewToken "d"] ∧
      1 ≤ Suffixes.count ⟨[(endToken, 1), (NewToken "d", 1)], [endToken, NewToken "d"]⟩ u :=
  getRandom_returns_collected NewChain testChain ["a b c", "b c d", "c d"] rfl
    trainAll_testChain
    ((NewToken "b", NewToken "c"),
      ⟨[(endToken, 1), (NewToken "d", 1)], [endToken, NewToken "d"]⟩)
    (by decide) 1 (3 / 4) (by decide) (by norm_num)

/-- C16. In every chain reached from a chain with an empty table by `Update` calls,
whatever its tokenizer and normalizer, every suffix table of the transition table is
well formed: its ordered successor sequence is non-empty and has no duplicates, the
sequence and the count map have the same elements, and every recorded count is at
least 1. -/
theorem reachable_tables_wellFormed (c0 c : Chain) (lines : List String)
    (h0 : c0.chains = []) (hc : trainAll c0 lines = .done c) :
    ∀ p ∈ c.chains,
      p.2.suffixes ≠ [] ∧ p.2.suffixes.Nodup ∧
      (∀ u, u ∈ p.2.suffixes ↔ u ∈ mapKeys p.2.occurrences) ∧
      (∀ u ∈ mapKeys p.2.occurrences, 1 ≤ p.2.count u) := by
  intro p hp
  have hwf : p.2.WellFormed :=
    tableWellFormed_trainAll lines c0 c (by rw [h0]; exact tableWellFormed_nil) hc p hp
  obtain ⟨h1, h2, h3, h4, h5⟩ := hwf
  exact ⟨h1, h2, fun u => ⟨h3 u, h4 u⟩, fun u hu => h5 u (h4 u hu)⟩

/-- C16 at the chain of the tests and its context `(c, d)`, whose table records `End`
twice. -/
theorem reachable_tables_wellFormed_witness :
    [endToken] ≠ [] ∧ [endToken].Nodup ∧
      (∀ u, u ∈ [endToken] ↔ u ∈ mapKeys [(endToken, 2)]) ∧
      (∀ u ∈ mapKeys [(endToken, 2)], 1 ≤ Suffixes.count ⟨[(endToken, 2)], [endToken]⟩ u) :=
  reachable_tables_wellFormed NewChain testChain ["a b c", "b c d", "c d"] rfl
    trainAll_testChain ((NewToken "c", NewToken "d"), ⟨[(endToken, 2)], [endToken]⟩)
    (by decide)

/-! ## The walk: result and termination -/

theorem respond_zero (c : Chain) (seed : Context) (rs : Rand) (fuel : Nat) :
    c.respond seed 0 rs fuel = .done ([], rs) := by
  unfold Chain.respond
  rw [if_neg (by decide), respondLoop_exit _ _ _ _ _ _ _ (by decide)]
  rfl

/-- C18. Whenever the walk `respond` returns, the returned sequence contains no start or
end token and has at most `maxLen` tokens (for a negative `maxLen` it does not return);
`respond(seed, 0)` returns the empty sequence for every seed. -/
theorem respond_result_bounds (c : Chain) (seed : Context) (maxLen : Int) (rs : Rand)
    (fuel : Nat) :
    (∀ res, c.respond seed maxLen rs fuel = .done res →
      (∀ t ∈ res.1, t.isStart = false ∧ t.isEnd = false) ∧ (res.1.length : Int) ≤ maxLen) ∧
    c.respond seed 0 rs fuel = .done ([], rs) := by
  refine ⟨fun res h => ?_, respond_zero c seed rs fuel⟩
  obtain ⟨-, h2, h3⟩ := respond_bound c seed maxLen rs fuel res h
  exact ⟨h3, h2⟩

/-- C18 at the call of `Testrespond`: `respond(ab, 0)` on the chain of the tests is
empty. -/
theorem respond_result_bounds_witness :
    testChain.respond (NewToken "a", NewToken "b") 0 (fun _ => ⟨0, 0⟩) 0
        = .done ([], fun _ => ⟨0, 0⟩) ∧
      ((([] : List Token).length : Int) ≤ 0) :=
  ⟨(respond_result_bounds testChain (NewToken "a", NewToken "b") 0 (fun _ => ⟨0, 0⟩) 0).2,
    ((respond_result_bounds testChain (NewToken "a", NewToken "b") 0 (fun _ => ⟨0, 0⟩) 0).1
      ([], fun _ => ⟨0, 0⟩)
      (respond_zero testChain (NewToken "a", NewToken "b") (fun _ => ⟨0, 0⟩) 0)).2⟩

theorem getRandom_done_mem (s : Suffixes) (d : Draw) (hs : s.WellFormed) (u : Token)
    (h : s.getRandom d = .done u) : u ∈ s.suffixes := by
  obtain ⟨x0, x1, hx0, hx1, he⟩ := getRandom_eq s d hs.1
  have c0 : (1 : ℚ) ≤ s.count x0 := by exact_mod_cast hs.2.2.2.2 x0 hx0
  have c1 : (1 : ℚ) ≤ s.count x1 := by exact_mod_cast hs.2.2.2.2 x1 hx1
  have hsum : (s.count x0 : ℚ) + s.count x1 + 0 ≠ 0 := by
    have : (0 : ℚ) < (s.count x0 : ℚ) + s.count x1 + 0 := by linarith
    exact ne_of_gt this
  rw [weightedChoice_three _ _ _ _ _ _ _ hsum, h] at he
  simp only [add_zero] at he
  split_ifs at he <;> cases he <;> assumption

theorem respondLoop_path (chains : List (Context × Suffixes)) (hwf : TableWellFormed chains)
    (maxLen : Int) :
    ∀ (fuel : Nat) (ngram : Context) (i : Int) (toks : List Token) (rs : Rand)
      (res : List Token × Rand),
      respondLoop chains maxLen fuel ngram i toks rs = .done res →
      ∃ extra, res.1 = toks ++ extra ∧ Path chains ngram extra := by
  intro fuel
  induction fuel with
  | zero =>
    intro ngram i toks rs res h
    by_cases hlt : i < maxLen
    · rw [respondLoop_zero _ _ _ _ _ _ hlt] at h
      cases h
    · rw [respondLoop_exit _ _ _ _ _ _ _ hlt] at h
      cases h
      exact ⟨[], by simp, trivial⟩
  | succ fuel ih =>
    intro ngram i toks rs res h
    by_cases hlt : i < maxLen
    · rw [respondLoop_succ _ _ _ _ _ _ _ hlt] at h
      cases hg : mapGet chains ngram with
      | none =>
        rw [hg] at h
        cases h
        exact ⟨[ngram.1], rfl, rfl⟩
      | some t =>
        rw [hg] at h
        cases hr : t.getRandom (rs 0) with
        | done u =>
          simp only [hr, Outcome.bind] at h
          obtain ⟨extra, he, hp⟩ := ih _ _ _ _ res h
          have hu : u ∈ tableSuffixes chains ngram := by
            simp only [tableSuffixes, hg]
            exact getRandom_done_mem t (rs 0) (hwf _ (mem_of_mapGet _ _ _ hg)) u hr
          refine ⟨ngram.1 :: extra, by simp [he], ?_⟩
          cases extra with
          | nil => rfl
          | cons t2 rest => exact ⟨rfl, u, hu, hp⟩
        | panic => simp [hr, Outcome.bind] at h
        | timeout => simp [hr, Outcome.bind] at h
    · rw [respondLoop_exit _ _ _ _ _ _ _ hlt] at h
      cases h
      exact ⟨[], by simp, trivial⟩

theorem mem_mapKeys_of_tableSuffixes (chains : List (Context × Suffixes)) (ngram : Context)
    (u : Token) (h : u ∈ tableSuffixes chains ngram) : ngram ∈ mapKeys chains := by
  unfold tableSuffixes at h
  cases hg : mapGet chains ngram with
  | none => simp [hg] at h
  | some t => exact (mapGet_isSome_iff chains ngram).1 (by simp [hg])

theorem path_tail_literal (chains : List (Context × Suffixes)) (hkeys : KeysLiteral chains) :
    ∀ (l : List Token) (ngram : Context), Path chains ngram l →
      ∀ t ∈ l.tail, t.isStart = false ∧ t.isEnd = false := by
  intro l
  induction l with
  | nil => intro ngram _ t ht; cases ht
  | cons a rest ih =>
    intro ngram hp t ht
    cases rest with
    | nil => cases ht
    | cons b rest =>
      obtain ⟨-, u, hu, hp2⟩ := hp
      have hb : b = ngram.2 := by
        cases rest with
        | nil => exact hp2
        | cons c rest => exact hp2.1
      rcases List.mem_cons.1 ht with rfl | ht
      · rw [hb]
        exact hkeys ngram (mem_mapKeys_of_tableSuffixes chains ngram u hu)
      · exact ih (shift ngram u) hp2 t ht

theorem respondLoop_length (chains : List (Context × Suffixes)) (maxLen : Int) :
    ∀ (fuel : Nat) (ngram : Context) (i : Int) (toks : List Token) (rs : Rand)
      (res : List Token × Rand),
      respondLoop chains maxLen fuel ngram i toks rs = .done res →
      res.1.length ≤ toks.length + fuel := by
  intro fuel
  induction fuel with
  | zero =>
    intro ngram i toks rs res h
    by_cases hlt : i < maxLen
    · rw [respondLoop_zero _ _ _ _ _ _ hlt] at h
      cases h
    · rw [respondLoop_exit _ _ _ _ _ _ _ hlt] at h
      cases h
      simp
  | succ fuel ih =>
    intro ngram i toks rs res h
    by_cases hlt : i < maxLen
    · rw [respondLoop_succ _ _ _ _ _ _ _ hlt] at h
      cases hg : mapGet chains ngram with
      | none =>
        rw [hg] at h
        cases h
        simp
      | some t =>
        rw [hg] at h
        cases hr : t.getRandom (rs 0) with
        | done u =>
          simp only [hr, Outcome.bind] at h
          have := ih _ _ _ _ res h
          simp only [List.length_append, List.length_singleton] at this
          omega
        | panic => simp [hr, Outcome.bind] at h
        | timeout => simp [hr, Outcome.bind] at h
    · rw [respondLoop_exit _ _ _ _ _ _ _ hlt] at h
      cases h
      simp

theorem walk_of_invariants (c : Chain) (hwf : TableWellFormed c.chains)
    (hkeys : KeysLiteral c.chains) (seed : Context) (maxLen : Int) (h0 : 0 ≤ maxLen)
    (rs : Rand) (hrs : ValidDraws rs) :
    ∃ trace rs2,
      respondLoop c.chains maxLen (maxLen.toNat + 1) seed 0 [] rs = .done (trace, rs2) ∧
      trace.length ≤ maxLen.toNat + 1 ∧
      (∀ t ∈ trace.tail, t.isStart = false ∧ t.isEnd = false) ∧
      c.respond seed maxLen rs (maxLen.toNat + 1)
        = if (makeCapLimit : Int) < maxLen then .panic
          else .done (withoutSpecials trace, rs2) := by
  obtain ⟨res, e, -⟩ := respondLoop_done c.chains hwf hkeys maxLen (maxLen.toNat + 1) seed 0 []
    rs hrs (by simp)
  obtain ⟨extra, he, hp⟩ := respondLoop_path c.chains hwf maxLen _ _ _ _ _ res e
  have hlen := respondLoop_length c.chains maxLen _ _ _ _ _ res e
  refine ⟨res.1, res.2, e, by simpa using hlen, ?_, ?_⟩
  · rw [he]
    exact path_tail_literal c.chains hkeys _ seed hp
  · unfold Chain.respond
    by_cases hcap : (makeCapLimit : Int) < maxLen
    · rw [if_pos (Or.inr hcap), if_pos hcap]
    · rw [if_neg (by omega), if_neg hcap, e]
      rfl

/-- C19. On a chain built from the empty default chain by `Update`s, for every seed,
every `maxLen ≥ 0` and all draws in `[0, 1)`, the loop of the walk returns within
`maxLen + 1` iterations: its trace has at most `maxLen + 1` tokens, and every token of
the trace after the first is a literal, so only the seed's first token can fail to count
towards `maxLen`.  The walk itself returns the trace without its special tokens, unless
`maxLen` is above the capacity that `make([]Token, 0, maxLen)` accepts, where it panics
before the first iteration. -/
theorem walk_terminates_default (lines : List String) (c : Chain)
    (hc : trainAll NewChain lines = .done c) (seed : Context) (maxLen : Int)
    (h0 : 0 ≤ maxLen) (rs : Rand) (hrs : ValidDraws rs) :
    ∃ trace rs2,
      respondLoop c.chains maxLen (maxLen.toNat + 1) seed 0 [] rs = .done (trace, rs2) ∧
      trace.length ≤ maxLen.toNat + 1 ∧
      (∀ t ∈ trace.tail, t.isStart = false ∧ t.isEnd = false) ∧
      c.respond seed maxLen rs (maxLen.toNat + 1)
        = if (makeCapLimit : Int) < maxLen then .panic
          else .done (withoutSpecials trace, rs2) := by
  obtain ⟨hwf, hkeys⟩ := trained_invariants lines c hc
  exact walk_of_invariants c hwf hkeys seed maxLen h0 rs hrs

/-- C19 at the chain of the tests, the seed `(Start, a)` and `maxLen = 3`: the walk
returns with fuel for four iterations. -/
theorem walk_terminates_default_witness :
    ∃ trace rs2,
      respondLoop testChain.chains 3 4 (startToken, NewToken "a") 0 [] (fun _ => ⟨0, 0⟩)
        = .done (trace, rs2) ∧
      trace.length ≤ 4 ∧
      (∀ t ∈ trace.tail, t.isStart = false ∧ t.isEnd = false) ∧
      testChain.respond (startToken, NewToken "a") 3 (fun _ => ⟨0, 0⟩) 4
        = .done (withoutSpecials trace, rs2) := by
  obtain ⟨trace, rs2, e, hlen, hlit, hr⟩ :=
    walk_terminates_default ["a b c", "b c d", "c d"] testChain trainAll_testChain
      (startToken, NewToken "a") 3 (by decide) (fun _ => ⟨0, 0⟩) validDraws_zero
  exact ⟨trace, rs2, e, hlen, hlit, hr.trans (if_neg (by decide))⟩

theorem tokens_eq_tokenize (c : Chain) (tok : String → List Token) (htok : c.tokenize = some tok)
    (l : String) (toks : List Token) (h : c.tokens l = .done toks) : ∃ s, toks = tok s := by
  unfold Chain.tokens at h
  rw [htok] at h
  by_cases hn : c.useNormalize = true
  · cases hf : c.normalize with
    | none => simp [hn, hf, Outcome.bind] at h
    | some f =>
      simp only [hn, hf, if_true, Outcome.bind] at h
      cases h
      exact ⟨_, rfl⟩
  · simp only [hn, if_false, Outcome.bind] at h
    cases h
    exact ⟨_, rfl⟩

theorem keysLiteral_updateTokens (tok : String → List Token) (hint : InteriorLiteral tok)
    (chains : List (Context × Suffixes)) (h : KeysLiteral chains) (s : String) :
    KeysLiteral (updateTokens chains (tok s)) := by
  intro ctx hctx
  rcases (mem_mapKeys_updateTokens chains (tok s) ctx).1 hctx with h1 | ⟨i, hi, -, h2⟩
  · exact h ctx h1
  · simp only [NGrams] at hi
    exact hint s (i + 1) ctx.2 (by omega) (by omega) h2

theorem keysLiteral_trainAll (tok : String → List Token) (hint : InteriorLiteral tok)
    (lines : List String) :
    ∀ (c0 c : Chain), c0.tokenize = some tok → KeysLiteral c0.chains →
      trainAll c0 lines = .done c → KeysLiteral c.chains := by
  induction lines with
  | nil =>
    intro c0 c _ h hc
    cases hc
    exact h
  | cons l ls ih =>
    intro c0 c htok h hc
    unfold trainAll at hc
    cases hu : c0.Update l with
    | done c1 =>
      rw [hu] at hc
      obtain ⟨toks, ht, rfl⟩ := Update_done c0 c1 l hu
      obtain ⟨s, rfl⟩ := tokens_eq_tokenize c0 tok htok l toks ht
      exact ih { c0 with chains := updateTokens c0.chains (tok s) } c htok
        (keysLiteral_updateTokens tok hint c0.chains h s) hc
    | panic => simp [hu, Outcome.bind] at hc
    | timeout => simp [hu, Outcome.bind] at hc

theorem interiorLiteral_WhitespaceTokenize : InteriorLiteral WhitespaceTokenize := by
  intro s i t h0 h1 ht
  obtain ⟨p1, p2⟩ := WhitespaceTokenize_positions s i t ht
  constructor
  · cases hs : t.isStart with
    | false => rfl
    | true => have := p1.1 hs; omega
  · cases hs : t.isEnd with
    | false => rfl
    | true => have := p2.1 hs; omega

/-- C17, as the code has it.  On a chain built by `Update`s with a tokenizer whose
results have no start or end token strictly between the first and the last position,
for every seed, every `maxLen ≥ 0` and all draws in `[0, 1)`, the loop of the walk
returns within `maxLen + 1` iterations.  The walk itself returns the trace without its
special tokens, unless `maxLen` is above the capacity that `make([]Token, 0, maxLen)`
accepts, where it panics before the first iteration. -/
theorem walk_terminates_interior_literal (c0 c : Chain) (tok : String → List Token)
    (lines : List String) (h0 : c0.chains = []) (htok : c0.tokenize = some tok)
    (hint : InteriorLiteral tok) (hc : trainAll c0 lines = .done c)
    (seed : Context) (maxLen : Int) (hm : 0 ≤ maxLen) (rs : Rand) (hrs : ValidDraws rs) :
    ∃ trace rs2,
      respondLoop c.chains maxLen (maxLen.toNat + 1) seed 0 [] rs = .done (trace, rs2) ∧
      trace.length ≤ maxLen.toNat + 1 ∧
      c.respond seed maxLen rs (maxLen.toNat + 1)
        = if (makeCapLimit : Int) < maxLen then .panic
          else .done (withoutSpecials trace, rs2) := by
  have hwf : TableWellFormed c.chains :=
    tableWellFormed_trainAll lines c0 c (by rw [h0]; exact tableWellFormed_nil) hc
  have hkeys : KeysLiteral c.chains :=
    keysLiteral_trainAll tok hint lines c0 c htok
      (by rw [h0]; intro ctx hctx; cases hctx) hc
  obtain ⟨trace, rs2, e, hlen, -, hr⟩ := walk_of_invariants c hwf hkeys seed maxLen hm rs hrs
  exact ⟨trace, rs2, e, hlen, hr⟩

/-- C17 as amended, at the chain of the tests (the whitespace tokenizer has no special
token in the middle), the seed `(b, c)` and `maxLen = 2`. -/
theorem walk_terminates_interior_literal_witness :
    ∃ trace rs2,
      respondLoop testChain.chains 2 3 (NewToken "b", NewToken "c") 0 [] (fun _ => ⟨0, 0⟩)
        = .done (trace, rs2) ∧
      trace.length ≤ 3 ∧
      testChain.respond (NewToken "b", NewToken "c") 2 (fun _ => ⟨0, 0⟩) 3
        = .done (withoutSpecials trace, rs2) := by
  obtain ⟨trace, rs2, e, hlen, hr⟩ :=
    walk_terminates_interior_literal NewChain testChain WhitespaceTokenize
      ["a b c", "b c d", "c d"] rfl rfl interiorLiteral_WhitespaceTokenize trainAll_testChain
      (NewToken "b", NewToken "c") 2 (by decide) (fun _ => ⟨0, 0⟩) validDraws_zero
  exact ⟨trace, rs2, e, hlen, hr.trans (if_neg (by decide))⟩

theorem loopChain_getRandom :
    Suffixes.getRandom
        { occurrences := [(startToken, 1), (endToken, 1)], suffixes := [startToken, endToken] }
        ⟨0, 0⟩
      = .done startToken := by
  rw [getRandom_eq_samples]
  rw [if_neg (by decide)]
  rw [samples_eq _ _ startToken endToken rfl rfl]
  have ha : Suffixes.count
      { occurrences := [(startToken, 1), (endToken, 1)], suffixes := [startToken, endToken] }
      startToken = 1 := by decide
  have hb : Suffixes.count
      { occurrences := [(startToken, 1), (endToken, 1)], suffixes := [startToken, endToken] }
      endToken = 1 := by decide
  simp only [Outcome.bind, ha, hb]
  rw [weightedChoice_three _ _ _ _ _ _ _ (by norm_num)]
  norm_num

theorem loopChain_respondLoop :
    ∀ (fuel : Nat) (toks : List Token),
      respondLoop loopChain.chains 1 fuel (startToken, startToken) 0 toks (fun _ => ⟨0, 0⟩)
        = .timeout := by
  intro fuel
  induction fuel with
  | zero => intro toks; exact respondLoop_zero _ _ _ _ _ _ (by decide)
  | succ fuel ih =>
    intro toks
    rw [respondLoop_succ _ _ _ _ _ _ _ (by decide)]
    have hg : mapGet loopChain.chains (startToken, startToken)
        = some { occurrences := [(startToken, 1), (endToken, 1)],
                 suffixes := [startToken, endToken] } := rfl
    rw [hg]
    simp only [loopChain_getRandom, Outcome.bind]
    exact ih (toks ++ [startToken])

/-- C17 fails for the tokenizer `loopTokenize`, whose results `[Start, Start, Start, End]`
start with Start and end with End: after `Update("x")` the context `(Start, Start)` has
the successor `Start`, and with start index 0 and `r = 0` at every draw the walk from
`(Start, Start)` with `maxLen = 1` emits `Start` for ever; no amount of fuel lets it
return. -/
theorem walk_can_run_forever :
    trainAll (NewCustomChain (some loopTokenize) (some fun s => s)) ["x"] = .done loopChain ∧
      (∀ s, (loopTokenize s).head? = some startToken ∧
        (loopTokenize s).getLast? = some endToken) ∧
      ValidDraws (fun _ => ⟨0, 0⟩) ∧
      ∀ fuel, loopChain.respond (startToken, startToken) 1 (fun _ => ⟨0, 0⟩) fuel
        = .timeout := by
  refine ⟨rfl, fun s => ⟨rfl, rfl⟩, validDraws_zero, fun fuel => ?_⟩
  unfold Chain.respond
  rw [if_neg (by decide), loopChain_respondLoop]
  rfl

/-! ## Every emitted transition was observed in training -/

theorem path_triples (chains : List (Context × Suffixes)) :
    ∀ (l : List Token) (ngram : Context), Path chains ngram l →
      ∀ (j : Nat) (a b s : Token), l[j]? = some a → l[j + 1]? = some b →
        l[j + 2]? = some s → s ∈ tableSuffixes chains (a, b) := by
  intro l
  induction l with
  | nil => intro ngram _ j a b s h; simp at h
  | cons a0 rest ih =>
    intro ngram hp j a b s ha hb hs
    cases rest with
    | nil => simp at hb
    | cons b0 rest =>
      obtain ⟨h0, u, hu, hp2⟩ := hp
      cases j with
      | zero =>
        cases rest with
        | nil => simp at hs
        | cons s0 rest =>
          obtain ⟨h1, u2, -, hp3⟩ := hp2
          have h2 : s0 = u := by
            cases rest with
            | nil => exact hp3
            | cons x rest => exact hp3.1
          simp only [List.getElem?_cons_zero, List.getElem?_cons_succ, Option.some.injEq]
            at ha hb hs
          subst ha hb hs
          rw [h0, h1, h2]
          exact hu
      | succ j =>
        exact ih (shift ngram u) hp2 j a b s (by simpa using ha) (by simpa using hb)
          (by simpa using hs)

theorem withoutSpecials_of_tail_literal (l : List Token)
    (h : ∀ t ∈ l.tail, t.isStart = false ∧ t.isEnd = false) :
    withoutSpecials l = l ∨ withoutSpecials l = l.tail := by
  cases l with
  | nil => exact Or.inl rfl
  | cons a rest =>
    have h' : ∀ t ∈ rest, t.isStart = false ∧ t.isEnd = false := by simpa using h
    cases h1 : a.isStart <;> cases h2 : a.isEnd <;>
      simp [withoutSpecials, List.filter_cons, h1, h2] <;>
      first
        | exact Or.inl h'
        | exact Or.inr h'

theorem exists_pos_of_sum_pos (xs : List Nat) (h : 1 ≤ xs.sum) : ∃ x ∈ xs, 1 ≤ x := by
  induction xs with
  | nil => simp at h
  | cons y ys ih =>
    by_cases hy : 1 ≤ y
    · exact ⟨y, by simp, hy⟩
    · simp only [List.sum_cons] at h
      obtain ⟨x, hx, h1⟩ := ih (by omega)
      exact ⟨x, List.mem_cons_of_mem _ hx, h1⟩

theorem observed_of_mem_tableSuffixes (lines : List String) (c : Chain)
    (hc : trainAll NewChain lines = .done c) (a b s : Token)
    (h : s ∈ tableSuffixes c.chains (a, b)) :
    ∃ l ∈ lines, ∃ i, (WhitespaceTokenize l)[i]? = some a ∧
      (WhitespaceTokenize l)[i + 1]? = some b ∧ (WhitespaceTokenize l)[i + 2]? = some s := by
  obtain ⟨hwf, -⟩ := trained_invariants lines c hc
  rw [trainAll_eq WhitespaceTokenize lines NewChain NewChain_tokens] at hc
  cases hc
  simp only at h hwf
  have hcount : 1 ≤ tableCount
      (lines.foldl (fun ch l => updateTokens ch (WhitespaceTokenize l)) NewChain.chains)
      (a, b) s := by
    unfold tableSuffixes at h
    unfold tableCount
    cases hg : mapGet
        (lines.foldl (fun ch l => updateTokens ch (WhitespaceTokenize l)) NewChain.chains)
        (a, b) with
    | none => simp [hg] at h
    | some t =>
      rw [hg] at h
      exact (hwf _ (mem_of_mapGet _ _ _ hg)).2.2.2.2 s h
  rw [tableCount_foldl] at hcount
  have h0 : tableCount NewChain.chains (a, b) s = 0 := rfl
  rw [h0, iterate_float32Succ_zero] at hcount
  obtain ⟨x, hx, h1⟩ := exists_pos_of_sum_pos _ (le_min_iff.1 hcount).1
  obtain ⟨l, hl, rfl⟩ := List.mem_map.1 hx
  unfold transitionCount at h1
  obtain ⟨i, -, hi⟩ := List.countP_pos_iff.1 h1
  simp only [decide_eq_true_eq, NGrams] at hi
  exact ⟨l, hl, i, hi.1, hi.2.1, hi.2.2⟩

theorem respond_triples (lines : List String) (c : Chain)
    (hc : trainAll NewChain lines = .done c) (seed : Context) (maxLen : Int) (rs : Rand)
    (fuel : Nat) (res : List Token × Rand) (h : c.respond seed maxLen rs fuel = .done res) :
    ∀ (j : Nat) (a b s : Token), res.1[j]? = some a → res.1[j + 1]? = some b →
      res.1[j + 2]? = some s → s ∈ tableSuffixes c.chains (a, b) := by
  obtain ⟨hwf, hkeys⟩ := trained_invariants lines c hc
  unfold Chain.respond at h
  by_cases hneg : maxLen < 0 ∨ (makeCapLimit : Int) < maxLen
  · simp [hneg] at h
  rw [if_neg hneg] at h
  cases hl : respondLoop c.chains maxLen fuel seed 0 [] rs with
  | done st =>
    simp only [hl, Outcome.bind] at h
    cases h
    obtain ⟨extra, he, hp⟩ := respondLoop_path c.chains hwf maxLen _ _ _ _ _ st hl
    simp only [List.nil_append] at he
    have htail := path_tail_literal c.chains hkeys extra seed hp
    intro j a b s ha hb hs
    have hfilter : (st.1.filter fun tok => !(tok.isStart || tok.isEnd)) = withoutSpecials st.1 :=
      rfl
    rw [hfilter, he] at ha hb hs
    rcases withoutSpecials_of_tail_literal extra htail with e | e
    · rw [e] at ha hb hs
      exact path_triples c.chains extra seed hp j a b s ha hb hs
    · rw [e] at ha hb hs
      cases extra with
      | nil => simp at ha
      | cons x rest =>
        simp only [List.tail_cons] at ha hb hs
        exact path_triples c.chains (x :: rest) seed hp (j + 1) a b s (by simpa using ha)
          (by simpa using hb) (by simpa using hs)
  | panic => simp [hl, Outcome.bind] at h
  | timeout => simp [hl, Outcome.bind] at h

theorem inputSeedLoop_of_respond (c : Chain) (tokens : List Token) (minLen maxLen : Int)
    (fuel : Nat) (P : List Token → Prop)
    (hP : ∀ seed rs res, c.respond seed maxLen rs fuel = .done res → P res.1) :
    ∀ (indexOrder : List Nat) (rs : Rand) (toks : List Token) (rs2 : Rand),
      inputSeedLoop c tokens minLen maxLen fuel indexOrder rs = .done (some toks, rs2) →
      P toks := by
  intro indexOrder
  induction indexOrder with
  | nil => intro rs toks rs2 h; simp [inputSeedLoop] at h
  | cons i rest ih =>
    intro rs toks rs2 h
    unfold inputSeedLoop at h
    cases hf : fillNGram tokens i with
    | done ngram =>
      simp only [hf, Outcome.bind] at h
      cases hg : mapGet c.chains ngram with
      | none =>
        rw [hg] at h
        exact ih rs toks rs2 h
      | some t =>
        rw [hg] at h
        cases hr : c.respond ngram maxLen rs fuel with
        | done st =>
          simp only [hr] at h
          split_ifs at h with hlen
          · cases h
            exact hP ngram rs st hr
          · exact ih _ toks rs2 h
        | panic => simp [hr] at h
        | timeout => simp [hr] at h
    | panic => simp [hf, Outcome.bind] at h
    | timeout => simp [hf, Outcome.bind] at h

theorem tableSeedLoop_of_respond (c : Chain) (minLen maxLen : Int) (fuel : Nat)
    (P : List Token → Prop)
    (hP : ∀ seed rs res, c.respond seed maxLen rs fuel = .done res → P res.1) :
    ∀ (rangeOrder : List Context) (rs : Rand) (toks : List Token) (rs2 : Rand),
      tableSeedLoop c minLen maxLen fuel rangeOrder rs = .done (some toks, rs2) → P toks := by
  intro rangeOrder
  induction rangeOrder with
  | nil => intro rs toks rs2 h; simp [tableSeedLoop] at h
  | cons ngram rest ih =>
    intro rs toks rs2 h
    unfold tableSeedLoop at h
    cases hr : c.respond ngram maxLen rs fuel with
    | done st =>
      simp only [hr, Outcome.bind] at h
      split_ifs at h with hlen
      · cases h
        exact hP ngram rs st hr
      · exact ih _ toks rs2 h
    | panic => simp [hr, Outcome.bind] at h
    | timeout => simp [hr, Outcome.bind] at h

theorem responseToks_of_respond (c : Chain) (input : String) (minLen maxLen : Int)
    (indexOrder : List Nat) (rangeOrder : List Context) (rs : Rand) (fuel : Nat)
    (P : List Token → Prop)
    (hP : ∀ seed rs res, c.respond seed maxLen rs fuel = .done res → P res.1)
    (toks : List Token)
    (h : c.responseToks input minLen maxLen indexOrder rangeOrder rs fuel = .done (some toks)) :
    P toks := by
  unfold Chain.responseToks at h
  cases ht : c.tokens input with
  | done tokens =>
    simp only [ht, Outcome.bind] at h
    split at h
    · rename_i st hst
      split at h
      · rename_i toks' htoks
        cases h
        obtain ⟨o, rs2⟩ := st
        simp only at htoks
        subst htoks
        split_ifs at hst with hlen
        · exact inputSeedLoop_of_respond c tokens minLen maxLen fuel P hP _ _ _ _ hst
        · cases hst
      · rename_i hnone
        split at h
        · rename_i st2 hst2
          obtain ⟨o2, rs3⟩ := st2
          cases h
          exact tableSeedLoop_of_respond c minLen maxLen fuel P hP _ _ _ _ hst2
        · cases h
        · cases h
    · cases h
    · cases h
  | panic => simp [ht, Outcome.bind] at h
  | timeout => simp [ht, Outcome.bind] at h

theorem Respond_done_toks (c : Chain) (input : String) (minLen maxLen : Int)
    (indexOrder : List Nat) (rangeOrder : List Context) (rs : Rand) (fuel : Nat)
    (response : String)
    (h : c.Respond input minLen maxLen indexOrder rangeOrder rs fuel
      = .done (response, none)) :
    ∃ toks, c.responseToks input minLen maxLen indexOrder rangeOrder rs fuel
        = .done (some toks) ∧ response = joinTokens toks := by
  unfold Chain.Respond at h
  by_cases he : c.chains.length = 0
  · simp [he] at h
  rw [if_neg he] at h
  cases hr : c.responseToks input minLen maxLen indexOrder rangeOrder rs fuel with
  | done r =>
    cases r with
    | none => simp [hr, Outcome.bind] at h
    | some toks =>
      simp only [hr, Outcome.bind, Outcome.done.injEq, Prod.mk.injEq, and_true] at h
      exact ⟨toks, rfl, h.symm⟩
  | panic => simp [hr, Outcome.bind] at h
  | timeout => simp [hr, Outcome.bind] at h

/-- C20. On a chain built from the empty default chain by `Update`s, whenever `Respond`
returns a response without error, every three consecutive tokens of the token sequence
it accepted and joined occur as three consecutive tokens of the tokenization of some
trained line. -/
theorem respond_transitions_observed (lines : List String) (c : Chain)
    (hc : trainAll NewChain lines = .done c) (input : String) (minLen maxLen : Int)
    (indexOrder : List Nat) (rangeOrder : List Context) (rs : Rand) (fuel : Nat)
    (response : String)
    (h : c.Respond input minLen maxLen indexOrder rangeOrder rs fuel
      = .done (response, none)) :
    ∃ toks, c.responseToks input minLen maxLen indexOrder rangeOrder rs fuel
        = .done (some toks) ∧
      response = joinTokens toks ∧
      ∀ (j : Nat) (a b s : Token), toks[j]? = some a → toks[j + 1]? = some b →
        toks[j + 2]? = some s →
        ∃ l ∈ lines, ∃ i, (WhitespaceTokenize l)[i]? = some a ∧
          (WhitespaceTokenize l)[i + 1]? = some b ∧
          (WhitespaceTokenize l)[i + 2]? = some s := by
  obtain ⟨toks, ht, hj⟩ := Respond_done_toks c input minLen maxLen indexOrder rangeOrder rs
    fuel response h
  refine ⟨toks, ht, hj, ?_⟩
  have hall := responseToks_of_respond c input minLen maxLen indexOrder rangeOrder rs fuel
    (fun toks => ∀ (j : Nat) (a b s : Token), toks[j]? = some a → toks[j + 1]? = some b →
      toks[j + 2]? = some s → s ∈ tableSuffixes c.chains (a, b))
    (fun seed rs0 res hres => respond_triples lines c hc seed maxLen rs0 fuel res hres)
    toks ht
  intro j a b s ha hb hs
  exact observed_of_mem_tableSuffixes lines c hc a b s (hall j a b s ha hb hs)

/-- C20 at the call of `TestRespond` with the windows tried in the order 1, 2, 0: the
tokens `a b c` of the response are consecutive in the trained line `"a b c"`. -/
theorem respond_transitions_observed_witness :
    ∃ toks, testChain.responseToks "a b" 2 3 [1, 2, 0] [] (fun _ => ⟨0, 0⟩) 4
        = .done (some toks) ∧
      "a b c" = joinTokens toks ∧
      ∀ (j : Nat) (a b s : Token), toks[j]? = some a → toks[j + 1]? = some b →
        toks[j + 2]? = some s →
        ∃ l ∈ ["a b c", "b c d", "c d"], ∃ i, (WhitespaceTokenize l)[i]? = some a ∧
          (WhitespaceTokenize l)[i + 1]? = some b ∧
          (WhitespaceTokenize l)[i + 2]? = some s :=
  respond_transitions_observed ["a b c", "b c d", "c d"] testChain trainAll_testChain "a b" 2 3
    [1, 2, 0] [] (fun _ => ⟨0, 0⟩) 4 "a b c"
    (testChain_Respond [1, 2, 0] (by decide) [] _ validDraws_zero 4 (by decide))

end Markov
